import Mathlib

set_option maxRecDepth 8000

/- Verification of the nuxt2-migrate Vue SFC rewriter against its design
   specification.  The JavaScript source (src/index.js, plus the newer
   transformMethodBody variant carrying the $set/$delete rules) is shallowly
   embedded here: strings are lists of characters, the regex-replace passes
   become explicit left-to-right scanners, and the assembler fragments become
   functions from the extracted component model to emitted text. -/

abbrev Str := List Char

def str (s : String) : Str := s.data

/- Character classes used by the regexes in the source (ASCII fragment of
   the JavaScript classes; the source only ever feeds ASCII patterns). -/

def isWsChar (c : Char) : Bool :=
  c = ' ' || c = '\t' || c = '\n' || c = '\r' || c = '\x0b' || c = '\x0c'

def isWordChar (c : Char) : Bool :=
  ('a' ≤ c && c ≤ 'z') || ('A' ≤ c && c ≤ 'Z') || ('0' ≤ c && c ≤ '9') || c = '_'

def identStartChar (c : Char) : Bool :=
  ('a' ≤ c && c ≤ 'z') || ('A' ≤ c && c ≤ 'Z') || c = '_' || c = '$'

def identTailChar (c : Char) : Bool :=
  identStartChar c || ('0' ≤ c && c ≤ '9')

def isQuote (c : Char) : Bool :=
  c = '\x27' || c = '\x22'

/- Boolean prefix / substring tests, mirroring how the scanners below look
   for a literal pattern in the text. -/

def isPre : Str → Str → Bool
  | [], _ => true
  | _ :: _, [] => false
  | a :: as, b :: bs => a == b && isPre as bs

def containsSub (pat : Str) : Str → Bool
  | [] => pat.isEmpty
  | c :: rest => isPre pat (c :: rest) || containsSub pat rest

/- Generic left-to-right single-pass replacer: the shallow embedding of one
   JavaScript String.replace(/anchor.../g, cb) call.  At each position the
   scanner checks for the literal anchor; on a hit the parser f receives the
   text after the anchor and either yields (replacement, extra characters
   consumed beyond the anchor) or declines, in which case scanning resumes a
   single character further on, exactly as the regex engine does.  Fuel is the
   input length; every successful match consumes at least the nonempty anchor,
   so the fuel never runs out on real inputs, and the fuel-exhausted branch
   returns the remaining text unchanged. -/

def scanGo (anc : Str) (f : Str → Option (Str × Nat)) : Nat → Str → Str
  | _, [] => []
  | 0, s => s
  | n + 1, c :: rest =>
    if isPre anc (c :: rest) then
      match f (List.drop anc.length (c :: rest)) with
      | some (repl, k) => repl ++ scanGo anc f n (List.drop (anc.length + k) (c :: rest))
      | none => c :: scanGo anc f n rest
    else c :: scanGo anc f n rest

def scanRew (anc : Str) (f : Str → Option (Str × Nat)) (s : Str) : Str :=
  scanGo anc f s.length s

/- Basic facts about the prefix and substring tests. -/

theorem isPre_iff (a : Str) : ∀ b : Str, isPre a b = true ↔ a <+: b := by
  induction a with
  | nil => intro b; simp [isPre]
  | cons x xs ih =>
    intro b
    cases b with
    | nil => simp [isPre]
    | cons y ys =>
      simp [isPre, List.cons_prefix_cons, ih, Bool.and_eq_true, beq_iff_eq]

theorem containsSub_iff (pat : Str) : ∀ s : Str, containsSub pat s = true ↔ pat <:+: s := by
  intro s
  induction s with
  | nil =>
    show pat.isEmpty = true ↔ pat <:+: []
    rw [List.isEmpty_iff, List.infix_nil]
  | cons c rest ih =>
    show (isPre pat (c :: rest) || containsSub pat rest) = true ↔ pat <:+: c :: rest
    rw [Bool.or_eq_true, isPre_iff, ih, List.infix_cons_iff]

theorem containsSub_trans {b a s : Str} (h1 : containsSub b a = true)
    (h2 : containsSub a s = true) : containsSub b s = true := by
  rw [containsSub_iff] at h1 h2 ⊢
  exact h1.trans h2

theorem containsSub_of_piece {pat s : Str} (h : pat <:+: s) : containsSub pat s = true :=
  (containsSub_iff pat s).mpr h

theorem not_containsSub_of_piece {pat a s : Str} (hinf : a <:+: s)
    (h : containsSub pat s = false) : containsSub pat a = false := by
  cases hc : containsSub pat a with
  | false => rfl
  | true =>
    have := containsSub_of_piece (((containsSub_iff pat a).mp hc).trans hinf)
    rw [h] at this
    exact absurd this (by simp)

/- A scan pass whose anchor does not occur in the text leaves it unchanged. -/

theorem scanGo_id (anc : Str) (f : Str → Option (Str × Nat)) :
    ∀ (fuel : Nat) (s : Str), containsSub anc s = false → scanGo anc f fuel s = s := by
  intro fuel
  induction fuel with
  | zero => intro s _; cases s <;> rfl
  | succ n ih =>
    intro s h
    cases s with
    | nil => rfl
    | cons c rest =>
      have h2 : (isPre anc (c :: rest) || containsSub anc rest) = false := h
      rw [Bool.or_eq_false_iff] at h2
      rw [scanGo, if_neg (by simp [h2.1])]
      rw [ih rest h2.2]

theorem scanRew_id {anc : Str} (f : Str → Option (Str × Nat)) {s : Str}
    (h : containsSub anc s = false) : scanRew anc f s = s :=
  scanGo_id anc f s.length s h

theorem scanRew_id_sub {inner anc : Str} (f : Str → Option (Str × Nat)) {s : Str}
    (hanc : containsSub inner anc = true) (h : containsSub inner s = false) :
    scanRew anc f s = s := by
  apply scanRew_id
  cases hc : containsSub anc s with
  | false => rfl
  | true =>
    have := containsSub_trans hanc hc
    rw [h] at this
    exact absurd this (by simp)

/- Exact single-match evaluation: when the text is one whole match, the pass
   returns exactly the replacement. -/

theorem isPre_append_self (a : Str) (r : Str) : isPre a (a ++ r) = true := by
  induction a with
  | nil => rfl
  | cons x xs ih => simp [isPre, ih]

theorem scanGo_nil (anc : Str) (f : Str → Option (Str × Nat)) (fuel : Nat) :
    scanGo anc f fuel [] = [] := by
  cases fuel <;> rfl

theorem scanRew_exact (a : Char) (anc : Str) (f : Str → Option (Str × Nat))
    (r rep : Str) (h : f r = some (rep, r.length)) :
    scanRew (a :: anc) f ((a :: anc) ++ r) = rep := by
  have hlen : ((a :: anc) ++ r).length = (anc ++ r).length + 1 := by
    simp [List.length_append, List.length_cons]
  rw [scanRew, hlen]
  show scanGo (a :: anc) f ((anc ++ r).length + 1) (a :: (anc ++ r)) = rep
  rw [scanGo]
  rw [if_pos (by exact isPre_append_self (a :: anc) r)]
  have hdrop : List.drop (a :: anc).length ((a :: anc) ++ r) = r := List.drop_left (a :: anc) r
  have hdrop2 : List.drop ((a :: anc).length + r.length) ((a :: anc) ++ r) = [] := by
    have hl : (a :: anc).length + r.length = ((a :: anc) ++ r).length := by
      simp [List.length_append]
      omega
    rw [hl, List.drop_length]
  show (match f (List.drop (a :: anc).length ((a :: anc) ++ r)) with
      | some (repl, k) =>
          repl ++ scanGo (a :: anc) f (anc ++ r).length
            (List.drop ((a :: anc).length + k) ((a :: anc) ++ r))
      | none => a :: scanGo (a :: anc) f (anc ++ r).length (anc ++ r)) = rep
  rw [hdrop, h]
  show rep ++ scanGo (a :: anc) f (anc ++ r).length
      (List.drop ((a :: anc).length + r.length) ((a :: anc) ++ r)) = rep
  rw [hdrop2, scanGo_nil, List.append_nil]

/- takeWhile / dropWhile over a run followed by a stopper. -/

theorem takeWhile_run {p : Char → Bool} : ∀ (xs : Str) (c : Char) (r : Str),
    (∀ a ∈ xs, p a = true) → p c = false → (xs ++ c :: r).takeWhile p = xs := by
  intro xs
  induction xs with
  | nil => intro c r _ hc; simp [List.takeWhile, hc]
  | cons x xs ih =>
    intro c r hall hc
    have hx : p x = true := hall x (by simp)
    simp only [List.cons_append, List.takeWhile_cons, hx]
    simp [ih c r (fun a ha => hall a (by simp [ha])) hc]

theorem dropWhile_run {p : Char → Bool} : ∀ (xs : Str) (c : Char) (r : Str),
    (∀ a ∈ xs, p a = true) → p c = false → (xs ++ c :: r).dropWhile p = c :: r := by
  intro xs
  induction xs with
  | nil => intro c r _ hc; simp [List.dropWhile, hc]
  | cons x xs ih =>
    intro x2 r hall hc
    have hx : p x = true := hall x (by simp)
    simp only [List.cons_append, List.dropWhile_cons, hx]
    simp [ih x2 r (fun a ha => hall a (by simp [ha])) hc]

theorem dropWhile_head_false {p : Char → Bool} {c : Char} (s : Str) (hc : p c = false) :
    (c :: s).dropWhile p = c :: s := by
  simp [List.dropWhile_cons, hc]

theorem takeWhile_head_false {p : Char → Bool} {c : Char} (s : Str) (hc : p c = false) :
    (c :: s).takeWhile p = [] := by
  simp [List.takeWhile_cons, hc]

/- Line splitting and joining, the embedding of String.split("\n") and
   Array.join("\n") used by the line-granular diagnostic pass. -/

def splitOnNl : Str → List Str
  | [] => [[]]
  | c :: r =>
    if c = '\n' then [] :: splitOnNl r
    else
      match splitOnNl r with
      | [] => [[c]]
      | l :: ls => (c :: l) :: ls

def joinSep (sep : Str) : List Str → Str
  | [] => []
  | [x] => x
  | x :: xs => x ++ sep ++ joinSep sep xs

def joinNl : List Str → Str := joinSep ['\n']

theorem splitOnNl_ne_nil (s : Str) : splitOnNl s ≠ [] := by
  cases s with
  | nil => simp [splitOnNl]
  | cons c r =>
    by_cases hc : c = '\n'
    · simp [splitOnNl, hc]
    · simp only [splitOnNl, if_neg hc]
      cases splitOnNl r <;> simp

theorem joinNl_splitOnNl (s : Str) : joinNl (splitOnNl s) = s := by
  induction s with
  | nil => rfl
  | cons c r ih =>
    by_cases hc : c = '\n'
    · subst hc
      simp only [splitOnNl, if_pos rfl]
      cases hsp : splitOnNl r with
      | nil => exact absurd hsp (splitOnNl_ne_nil r)
      | cons l ls =>
        show joinSep ['\n'] ([] :: l :: ls) = '\n' :: r
        show [] ++ ['\n'] ++ joinSep ['\n'] (l :: ls) = '\n' :: r
        rw [← hsp]
        show '\n' :: joinNl (splitOnNl r) = '\n' :: r
        rw [ih]
    · simp only [splitOnNl, if_neg hc]
      cases hsp : splitOnNl r with
      | nil => exact absurd hsp (splitOnNl_ne_nil r)
      | cons l ls =>
        cases ls with
        | nil =>
          show (c :: l) = c :: r
          have : joinNl (splitOnNl r) = r := ih
          rw [hsp] at this
          show c :: l = c :: r
          simp [joinNl, joinSep] at this
          rw [this]
        | cons l2 ls2 =>
          show (c :: l) ++ ['\n'] ++ joinSep ['\n'] (l2 :: ls2) = c :: r
          have : joinNl (splitOnNl r) = r := ih
          rw [hsp] at this
          have h2 : l ++ ['\n'] ++ joinSep ['\n'] (l2 :: ls2) = r := this
          simp only [List.cons_append]
          rw [h2]

theorem mem_splitOnNl_piece {l : Str} : ∀ {s : Str}, l ∈ splitOnNl s → l <:+: s := by
  intro s
  induction s with
  | nil =>
    intro h
    simp [splitOnNl] at h
    simp [h]
  | cons c r ih =>
    intro h
    by_cases hc : c = '\n'
    · rw [splitOnNl, if_pos hc] at h
      rcases List.mem_cons.mp h with h1 | h2
      · simp [h1]
      · exact (ih h2).trans ⟨[c], [], by simp⟩
    · rw [splitOnNl, if_neg hc] at h
      cases hsp : splitOnNl r with
      | nil => exact absurd hsp (splitOnNl_ne_nil r)
      | cons hd tl =>
        rw [hsp] at h
        rcases List.mem_cons.mp h with h1 | h2
        · subst h1
          have hpre : hd <+: r := by
            have := joinNl_splitOnNl r
            rw [hsp] at this
            cases tl with
            | nil =>
              simp [joinNl, joinSep] at this
              exact this ▸ List.prefix_refl _
            | cons t ts =>
              have : hd ++ ['\n'] ++ joinSep ['\n'] (t :: ts) = r := this
              exact ⟨['\n'] ++ joinSep ['\n'] (t :: ts), by rw [← this]; simp⟩
          exact ((List.cons_prefix_cons.mpr ⟨rfl, hpre⟩).isInfix)
        · have : l ∈ splitOnNl r := by rw [hsp]; exact List.mem_cons_of_mem hd h2
          exact (ih this).trans ⟨[c], [], by simp⟩

/- Leading-whitespace, trailing-whitespace and trim helpers (String.trim and
   the leading-indentation capture in the diagnostic pass). -/

def leadWs (s : Str) : Str := s.takeWhile isWsChar

def trimWs (s : Str) : Str :=
  ((s.dropWhile isWsChar).reverse.dropWhile isWsChar).reverse

theorem dropWhile_suffix_self (p : Char → Bool) (s : Str) : s.dropWhile p <:+ s := by
  induction s with
  | nil => simp
  | cons c r ih =>
    by_cases hc : p c
    · rw [List.dropWhile_cons, if_pos hc]
      exact ih.trans (List.suffix_cons c r)
    · rw [List.dropWhile_cons, if_neg hc]

theorem trimWs_piece (s : Str) : trimWs s <:+: s := by
  have h1 : s.dropWhile isWsChar <:+ s := dropWhile_suffix_self _ s
  have h2 : (s.dropWhile isWsChar).reverse.dropWhile isWsChar <:+
      (s.dropWhile isWsChar).reverse := dropWhile_suffix_self _ _
  have h3 : trimWs s <+: s.dropWhile isWsChar := by
    rw [trimWs]
    rw [← List.reverse_suffix]
    simpa using h2
  obtain ⟨t, ht⟩ := h3
  obtain ⟨u, hu⟩ := h1
  exact ⟨u, t, by rw [List.append_assoc, ht, hu]⟩

theorem trimWs_eq_self {s : Str} (h1 : s.dropWhile isWsChar = s)
    (h2 : s.reverse.dropWhile isWsChar = s.reverse) : trimWs s = s := by
  rw [trimWs, h1, h2, List.reverse_reverse]

/- Stripping of the leading "{" and trailing "}" of a method body, the
   .replace over the anchored patterns at the top of transformMethodBody. -/

def stripOpenBrace (s : Str) : Str :=
  match s.dropWhile isWsChar with
  | c :: r => if c = '\x7b' then r.dropWhile isWsChar else s
  | [] => s

def stripCloseBrace (s : Str) : Str :=
  match s.reverse.dropWhile isWsChar with
  | c :: r => if c = '\x7d' then (r.dropWhile isWsChar).reverse else s
  | [] => s

theorem stripOpenBrace_suffix (s : Str) : stripOpenBrace s <:+ s := by
  rw [stripOpenBrace]
  cases hd : s.dropWhile isWsChar with
  | nil => exact List.suffix_refl s
  | cons c r =>
    show (if c = '\x7b' then List.dropWhile isWsChar r else s) <:+ s
    by_cases hc : c = '\x7b'
    · rw [if_pos hc]
      have hr : r <:+ s := by
        have := dropWhile_suffix_self isWsChar s
        rw [hd] at this
        exact (List.suffix_cons c r).trans this
      exact (dropWhile_suffix_self isWsChar r).trans hr
    · rw [if_neg hc]

theorem stripCloseBrace_prefix (s : Str) : stripCloseBrace s <+: s := by
  rw [stripCloseBrace]
  cases hd : s.reverse.dropWhile isWsChar with
  | nil => exact List.prefix_refl s
  | cons c r =>
    show (if c = '\x7d' then (List.dropWhile isWsChar r).reverse else s) <+: s
    by_cases hc : c = '\x7d'
    · rw [if_pos hc]
      have hr : r.dropWhile isWsChar <:+ s.reverse := by
        have h1 := dropWhile_suffix_self isWsChar s.reverse
        rw [hd] at h1
        exact (dropWhile_suffix_self isWsChar r).trans ((List.suffix_cons c r).trans h1)
      have h2 : (r.dropWhile isWsChar).reverse <+: s.reverse.reverse :=
        List.reverse_prefix.mpr (by simpa using hr)
      simpa using h2
    · rw [if_neg hc]

theorem stripBoth_piece (s : Str) : stripCloseBrace (stripOpenBrace s) <:+: s := by
  have h1 := stripCloseBrace_prefix (stripOpenBrace s)
  have h2 := stripOpenBrace_suffix s
  obtain ⟨t, ht⟩ := h1
  obtain ⟨u, hu⟩ := h2
  exact ⟨u, t, by rw [List.append_assoc, ht, hu]⟩

/- Component model fragments consumed by the body rewriter (extracted by the
   Semantic Model Extractor; only the fields the rewriter reads are kept). -/

structure StoreCfg where
  storeName : Str
  importName : Str
deriving DecidableEq

structure MapData where
  namespaceName : Option Str
  mappings : List (Str × Str)
deriving DecidableEq

def assocLookup {α : Type} (k : Str) : List (Str × α) → Option α
  | [] => none
  | (k2, v) :: rest => if k = k2 then some v else assocLookup k rest

structure TransformParams where
  hasAxios : Bool
  hasEventBus : Bool
  hasRefs : Bool
  hasConfig : Bool
  hasNextTick : Bool
  hasRoute : Bool
  hasRouter : Bool
  optionsVuex : Option (List (Str × StoreCfg))
  methodNames : List Str
  dataProps : List (Str × Str)
  computedNames : List Str
  vuexComputed : List MapData
  vuexMethodProps : List MapData
  propsNames : Option (List Str)
  mixinImports : List (List Str)
deriving DecidableEq

/- getStoreInstanceName: importName.replace(regex use-(w+)-Store anchored both
   ends, lowercase first letter of the middle plus the Store suffix). -/

def lowerFirst : Str → Str
  | [] => []
  | c :: r => c.toLower :: r

def getStoreInstanceName (importName : Str) : Str :=
  let mid := (importName.drop 3).take ((importName.drop 3).length - 5)
  if isPre (str "use") importName && isPre (str "erotS") importName.reverse &&
      !mid.isEmpty && mid.all isWordChar then
    lowerFirst mid ++ str "Store"
  else importName

/- isVariableDefined: membership of a this-qualified name in the tracked
   categories (data, computed, bulk-mapped computed store names, props,
   methods, mixin symbols).  JavaScript truthiness of looked-up values is kept:
   a data or mapping entry counts only when its text is nonempty. -/

def isPropB (propsNames : Option (List Str)) (v : Str) : Bool :=
  match propsNames with
  | some names => names.contains v
  | none => false

def isVariableDefinedB (p : TransformParams) (v : Str) : Bool :=
  (match assocLookup v p.dataProps with
   | some val => !val.isEmpty
   | none => false) ||
  p.computedNames.contains v ||
  p.vuexComputed.any (fun md =>
    match assocLookup v md.mappings with
    | some val => !val.isEmpty
    | none => false) ||
  isPropB p.propsNames v ||
  p.methodNames.contains v ||
  p.mixinImports.any (fun imps => imps.contains v)

/- The line-granular diagnostic pass: the first match of the pattern
   this-dot-word followed by whitespace, a semicolon or a closing parenthesis
   is looked up; an untracked name makes the whole line a FIXME comment with
   the original statement kept as a comment below it. -/

def isFlagTermChar (c : Char) : Bool :=
  isWsChar c || c = ';' || c = ')'

def findThisProp : Str → Option Str
  | [] => none
  | c :: rest =>
    if isPre (str "this.") (c :: rest) then
      let after := (c :: rest).drop 5
      let w := after.takeWhile isWordChar
      match after.drop w.length with
      | d :: _ =>
        if !w.isEmpty && isFlagTermChar d then some w else findThisProp rest
      | [] => findThisProp rest
    else findThisProp rest

def fixmeFlag (indent name trimmed : Str) : Str :=
  indent ++ str "// FIXME: undefined variable \x27" ++ name ++ str "\x27" ++
    '\n' :: (indent ++ str "// " ++ trimmed)

def flagLine (p : TransformParams) (line : Str) : Str :=
  let trimmed := trimWs line
  match findThisProp trimmed with
  | none => line
  | some name =>
    if p.methodNames.contains name then line
    else if isVariableDefinedB p name then line
    else fixmeFlag (leadWs line) name trimmed

def flagPass (p : TransformParams) (s : Str) : Str :=
  joinNl ((splitOnNl s).map (flagLine p))

/- The individual replace passes of transformMethodBody, in source order. -/

def constRepl (r : Str) : Str → Option (Str × Nat) := fun _ => some (r, 0)

def tndParser : Str → Option (Str × Nat)
  | c :: d :: _ =>
    if (c = 't' || c = 'n' || c = 'd') && d = '(' then some ([c, '('], 2) else none
  | _ => none

def normalizeEmit (e : Str) : Str :=
  if e = str "input" then str "update:value" else e

def emitParser (rest : Str) : Option (Str × Nat) :=
  let ws1 := rest.takeWhile isWsChar
  match rest.dropWhile isWsChar with
  | q1 :: r2 =>
    if isQuote q1 then
      let nm := r2.takeWhile (fun c => !(isQuote c))
      match r2.dropWhile (fun c => !(isQuote c)) with
      | q2 :: r4 =>
        if isQuote q2 && !nm.isEmpty then
          let ws2 := r4.takeWhile isWsChar
          match r4.dropWhile isWsChar with
          | ')' :: _ =>
            some (str "emit(\x27" ++ normalizeEmit nm ++ str "\x27)",
              ws1.length + 1 + nm.length + 1 + ws2.length + 1)
          | ',' :: r6 =>
            let payload := r6.takeWhile (fun c => !(c = ')' || c = '\n'))
            match r6.dropWhile (fun c => !(c = ')' || c = '\n')) with
            | ')' :: _ =>
              some (str "emit(\x27" ++ normalizeEmit nm ++ str "\x27" ++
                  ',' :: payload ++ [')'],
                ws1.length + 1 + nm.length + 1 + ws2.length + 1 + payload.length + 1)
            | _ => none
          | _ => none
        else none
      | [] => none
    else none
  | [] => none

def emitPass (s : Str) : Str := scanRew (str "this.$emit(") emitParser s

def axiosParser (rest : Str) : Option (Str × Nat) :=
  some (str "http", (rest.takeWhile isWsChar).length)

def axiosAssignParser (rest : Str) : Option (Str × Nat) :=
  let w := rest.takeWhile isWordChar
  if w.isEmpty then none
  else
    let r := rest.dropWhile isWordChar
    let ws := r.takeWhile isWsChar
    match r.dropWhile isWsChar with
    | '=' :: _ => some (w ++ str ".value =", w.length + ws.length + 1)
    | _ => none

def wordCallParser (inst : Str) (rest : Str) : Option (Str × Nat) :=
  let w := rest.takeWhile isWordChar
  if w.isEmpty then none
  else
    match rest.dropWhile isWordChar with
    | '(' :: _ => some (inst ++ '.' :: w ++ ['('], w.length + 1)
    | _ => none

def methodCallParser (rest : Str) : Option (Str × Nat) :=
  match rest with
  | c :: _ =>
    if identStartChar c then
      let w := rest.takeWhile identTailChar
      match rest.dropWhile identTailChar with
      | '(' :: _ => some (w ++ ['('], w.length + 1)
      | _ => none
    else none
  | [] => none

def busStripParser (rest : Str) : Option (Str × Nat) :=
  let w := rest.takeWhile isWordChar
  if w.isEmpty then none else some (w, w.length)

def spreadParser (rest : Str) : Option (Str × Nat) :=
  let w := rest.takeWhile isWordChar
  if w.isEmpty then none else some (str "..." ++ w ++ str ".value", w.length)

/- The structural this-member pass (transformThisReferencesWithTreeSitter),
   embedded textually: an occurrence of the anchor followed by an identifier
   is classified against the model, exactly as the tree matcher classifies a
   member expression whose object is the this keyword.  The textual scanner
   agrees with the structural matcher on every body in which each occurrence
   of the anchor text is a genuine this-member access (true of all inputs
   used below; and a body with no occurrence at all is untouched by both). -/

def treeParser (p : TransformParams) (rest : Str) : Option (Str × Nat) :=
  match rest with
  | c :: _ =>
    if identStartChar c && !(c = '$') then
      let w := rest.takeWhile identTailChar
      let repl :=
        if p.methodNames.contains w then w
        else if isPropB p.propsNames w then str "props." ++ w
        else w ++ str ".value"
      some (repl, w.length)
    else none
  | [] => none

def treePass (p : TransformParams) (s : Str) : Str :=
  scanRew (str "this.") (treeParser p) s

def endsRef (w : Str) : Bool := isPre (str "feR") w.reverse

def refNameVar (w : Str) : Str := if endsRef w then w else w ++ str "Ref"

def refsDotParser (rest : Str) : Option (Str × Nat) :=
  let w := rest.takeWhile isWordChar
  if w.isEmpty then none else some (refNameVar w ++ str ".value", w.length)

def camelize : Str → Str
  | [] => []
  | '-' :: c :: rest =>
    if 'a' ≤ c && c ≤ 'z' then c.toUpper :: camelize rest
    else '-' :: camelize (c :: rest)
  | c :: rest => c :: camelize rest

def refsBracketParser (rest : Str) : Option (Str × Nat) :=
  let w := rest.takeWhile (fun c => !(c = '\x27'))
  if w.isEmpty then none
  else
    match rest.dropWhile (fun c => !(c = '\x27')) with
    | '\x27' :: ']' :: _ => some (refNameVar (camelize w) ++ str ".value", w.length + 2)
    | _ => none

/- split of a store path at the slash: namespace and action segments of the
   commit/dispatch argument ('ns/action'); a path with no slash leaves the
   action segment as the undefined placeholder, as the destructuring does. -/

def storePathParts (path : Str) : Str × Str :=
  let ns := path.takeWhile (fun c => !(c = '/'))
  match path.dropWhile (fun c => !(c = '/')) with
  | '/' :: r => (ns, r.takeWhile (fun c => !(c = '/')))
  | _ => (ns, str "undefined")

def commitDispatchParser (vuexList : List (Str × StoreCfg)) (anchor : Str)
    (rest : Str) : Option (Str × Nat) :=
  let ws1 := rest.takeWhile isWsChar
  match rest.dropWhile isWsChar with
  | '(' :: r2 =>
    let ws2 := r2.takeWhile isWsChar
    match r2.dropWhile isWsChar with
    | q1 :: r4 =>
      if isQuote q1 then
        let path := r4.takeWhile (fun c => !(isQuote c))
        match r4.dropWhile (fun c => !(isQuote c)) with
        | q2 :: r6 =>
          if isQuote q2 && !path.isEmpty then
            let ws3 := r6.takeWhile isWsChar
            let r7 := r6.dropWhile isWsChar
            let hasComma := match r7 with
              | ',' :: _ => true
              | _ => false
            let r8 := if hasComma then r7.drop 1 else r7
            let ws4 := r8.takeWhile isWsChar
            let r9 := r8.dropWhile isWsChar
            let payload := r9.takeWhile (fun c => !(c = ')'))
            match r9.dropWhile (fun c => !(c = ')')) with
            | ')' :: _ =>
              let k := ws1.length + 1 + ws2.length + 1 + path.length + 1 +
                ws3.length + (if hasComma then 1 else 0) + ws4.length +
                payload.length + 1
              let pp := storePathParts path
              match assocLookup pp.1 vuexList with
              | some cfg =>
                let inst := getStoreInstanceName cfg.importName
                let clean := trimWs payload
                some ((if clean.isEmpty then inst ++ '.' :: pp.2 ++ str "()"
                  else inst ++ '.' :: pp.2 ++ '(' :: clean ++ [')']), k)
              | none => some (anchor ++ rest.take k, k)
            | _ => none
          else none
        | [] => none
      else none
    | [] => none
  | _ => none

def transformStoreCommitDispatch (p : TransformParams) (s : Str) : Str :=
  match p.optionsVuex with
  | none => s
  | some l =>
    let s1 := scanRew (str "this.$store.commit")
      (commitDispatchParser l (str "this.$store.commit")) s
    scanRew (str "this.$store.dispatch")
      (commitDispatchParser l (str "this.$store.dispatch")) s1

/- transformMethodBody (src/index.js): the full sequence of replace passes in
   source order.  Conditional passes fire on the same flags as the source;
   the Vuex branch iterates the configured namespaces in order and blindly
   prefixes every remaining this-dot-name call with that namespace's store
   instance, exactly as the source loop does. -/

def axiosStep (p : TransformParams) (s : Str) : Str :=
  if p.hasAxios then
    scanRew (str "this.") axiosAssignParser (scanRew (str "this.$axios") axiosParser s)
  else s

def nextTickStep (p : TransformParams) (s : Str) : Str :=
  if p.hasNextTick then scanRew (str "this.$nextTick") (constRepl (str "nextTick")) s
  else s

def vuexMethodCallStep (p : TransformParams) (s : Str) : Str :=
  match p.optionsVuex with
  | some nsList =>
    nsList.foldl (fun acc nscfg =>
      scanRew (str "this.")
        (wordCallParser (getStoreInstanceName nscfg.2.importName)) acc) s
  | none => scanRew (str "this.") methodCallParser s

def eventBusStep (p : TransformParams) (s : Str) : Str :=
  if p.hasEventBus then
    scanRew (str "this.") busStripParser
      (scanRew (str "this.$nuxt.$emit") (constRepl (str "eventBus.emit"))
        (scanRew (str "this.$nuxt.$off") (constRepl (str "eventBus.off"))
          (scanRew (str "this.$nuxt.$on") (constRepl (str "eventBus.on")) s)))
  else s

def refsStep (p : TransformParams) (s : Str) : Str :=
  if p.hasRefs then
    scanRew (str "this.$refs[\x27") refsBracketParser
      (scanRew (str "this.$refs.") refsDotParser
        (scanRew (str "this.$refs?.") refsDotParser s))
  else s

def configStep (p : TransformParams) (s : Str) : Str :=
  if p.hasConfig then scanRew (str "this.$config") (constRepl (str "config")) s
  else s

def routerStep (p : TransformParams) (s : Str) : Str :=
  if p.hasRoute || p.hasRouter then
    (if p.hasRouter then
      scanRew (str "this.$router") (constRepl (str "router"))
    else id)
      ((if p.hasRoute then
        scanRew (str "this.$route") (constRepl (str "route"))
      else id) s)
  else s

def transformMethodBodyModel (p : TransformParams) (body : Str) : Str :=
  let b1 := scanRew (str "this.$") tndParser body
  let b2 := scanRew (str "this.$i18n.locale") (constRepl (str "locale.value")) b1
  let b3 := scanRew (str "this.$i18n.localeProperties")
    (constRepl (str "localeProperties")) b2
  let b4 := stripCloseBrace (stripOpenBrace b3)
  let b5 := emitPass b4
  let b6 := flagPass p b5
  let b7 := axiosStep p b6
  let b8 := scanRew (str "this.$fetch()") (constRepl (str "fetch()")) b7
  let b9 := nextTickStep p b8
  let b10 := vuexMethodCallStep p b9
  let b11 := eventBusStep p b10
  let b12 := scanRew (str "...this.") spreadParser b11
  let b13 := treePass p b12
  let b14 := refsStep p b13
  let b15 := configStep p b14
  let b16 := nextTickStep p b15
  let b17 := routerStep p b16
  transformStoreCommitDispatch p b17

/- transformStoreUsageInMethods (src/index.js): applied to lifecycle bodies
   after transformMethodBody; per configured namespace it rewrites state
   accesses of that namespace and then blindly prefixes every remaining
   this-dot-name call with that namespace's instance. -/

def stateValueParser (rest : Str) : Option (Str × Nat) :=
  let w := rest.takeWhile isWordChar
  if w.isEmpty then none else some (w ++ str ".value", w.length)

def transformStoreUsageInMethodsModel (p : TransformParams) (s : Str) : Str :=
  match p.optionsVuex with
  | none => s
  | some l =>
    l.foldl (fun acc nscfg =>
      let inst := getStoreInstanceName nscfg.2.importName
      let acc1 := scanRew (str "this.$store.state." ++ nscfg.1 ++ ['.'])
        stateValueParser acc
      scanRew (str "this.") (wordCallParser inst) acc1) s

/- Lifecycle bodies go through transformMethodBody and, when a store
   configuration is present, through transformStoreUsageInMethods. -/

def lifecycleTf (p : TransformParams) (b : Str) : Str :=
  let t := transformMethodBodyModel p b
  match p.optionsVuex with
  | some _ => transformStoreUsageInMethodsModel p t
  | none => t

/- Lifecycle section of the assembler (transformToCompositionAPI): Vue 2 hook
   names are mapped to Vue 3 registration functions; created is inlined into
   the setup body; the beforeDestroy/beforeUnmount and destroyed/unmounted
   pairs follow the branch structure of the source loop. -/

def lifecycleNames : List Str :=
  [str "mounted", str "created", str "beforeMount", str "beforeCreate",
   str "updated", str "beforeUpdate", str "destroyed", str "beforeDestroy",
   str "beforeUnmount", str "unmounted", str "activated", str "deactivated",
   str "beforeUpdate"]

def isLifecycleMethodB (n : Str) : Bool := lifecycleNames.contains n

def lifecycleMapping (n : Str) : Option Str :=
  if n = str "mounted" then some (str "onMounted")
  else if n = str "beforeUpdate" then some (str "onBeforeUpdate")
  else if n = str "updated" then some (str "onUpdated")
  else if n = str "beforeUnmount" then some (str "onBeforeUnmount")
  else if n = str "unmounted" then some (str "onUnmounted")
  else if n = str "beforeDestroy" then some (str "onBeforeUnmount")
  else if n = str "destroyed" then some (str "onUnmounted")
  else if n = str "activated" then some (str "onActivated")
  else if n = str "deactivated" then some (str "onDeactivated")
  else none

def hookReg (hook body : Str) : Str :=
  str "\n\n" ++ hook ++ str "(() => \x7b\n" ++ body ++ str "\n\x7d);"

def hookEmit (tf : Str → Str) (lm : List (Str × Str)) : Str × Str → Str
  | (name, content) =>
    if name = str "created" then []
    else
      match lifecycleMapping name with
      | none => []
      | some hook =>
        let tc := tf content
        if name = str "beforeDestroy" then
          match assocLookup (str "beforeUnmount") lm with
          | some _ => []
          | none => hookReg hook tc
        else if name = str "beforeUnmount" then
          match assocLookup (str "beforeDestroy") lm with
          | some bd =>
            -- source computes the transformed beforeDestroy body here and then
            -- emits the registration without it
            let _bdContent := tf bd
            hookReg hook tc
          | none => hookReg hook tc
        else if name = str "destroyed" then
          match assocLookup (str "unmounted") lm with
          | some _ => []
          | none => hookReg hook tc
        else if name = str "unmounted" then
          match assocLookup (str "beforeDestroy") lm with
          | some bd => hookReg hook (tc ++ str "\n\n" ++ tf bd)
          | none => hookReg hook tc
        else hookReg hook tc

def createdPart (tf : Str → Str) (lm : List (Str × Str)) : Str :=
  match assocLookup (str "created") lm with
  | some c => str "\n\n" ++ tf c
  | none => []

def assembleLifecycle (tf : Str → Str) (lm : List (Str × Str)) : Str :=
  if lm.isEmpty then []
  else createdPart tf lm ++ (lm.map (hookEmit tf lm)).flatten

/- The lifecycle part of the Vue import aggregation (lines 1609-1629): each
   extracted hook name is mapped and the registration function name is pushed
   once onto the import list. -/

def lifecycleImportStep (acc : List Str) : Str × Str → List Str
  | (name, _) =>
    match lifecycleMapping name with
    | some h => if acc.contains h then acc else acc ++ [h]
    | none => acc

def lifecycleImports (acc0 : List Str) (lm : List (Str × Str)) : List Str :=
  lm.foldl lifecycleImportStep acc0

/- Data/asyncData section of the assembler: plain data properties become ref
   declarations unless the name is returned by asyncData; each asyncData
   return property gets a ref sourced from the useAsyncData result. -/

def transformDataValue (v : Str) : Str :=
  scanRew (str "this.$config") (constRepl (str "config"))
    (scanRew (str "this.$i18n.locale") (constRepl (str "locale.value"))
      (scanRew (str "this.$i18n.localeProperties")
        (constRepl (str "localeProperties")) v))

def plainDataDecl (k v : Str) : Str :=
  str "\nconst " ++ k ++ str " = ref(" ++ transformDataValue v ++ str ");"

def dataDeclPairs (dataProps : List (Str × Str)) (asyncProps : List Str) :
    List (Str × Str) :=
  dataProps.filterMap (fun kv =>
    if asyncProps.contains kv.1 then none
    else some (kv.1, plainDataDecl kv.1 kv.2))

def asyncDecl (p2 : Str) : Str :=
  str "\nconst " ++ p2 ++ str " = ref(data." ++ p2 ++ str ");"

def asyncRefDecls (asyncProps : List Str) : List Str :=
  asyncProps.map asyncDecl

/- Mixin destructuring section of the assembler (lines 2045-2058): the
   configured symbol list is filtered against the template variable set
   only, and a single destructuring from the composable is emitted. -/

def mixinDestructure (imports : List Str) (composableName : Str)
    (templateVariables : List Str) : Str :=
  let used := imports.filter (fun i => templateVariables.contains i)
  if used.isEmpty then []
  else str "\nconst \x7b " ++ joinSep (str ", ") used ++ str " \x7d = " ++
    composableName ++ str "();"

/- extractEmits: event names collected from this-dot-emit call sites with
   string-literal first arguments, normalized and deduplicated in call-site
   order (the JavaScript Set keeps insertion order). -/

def extractEmitsAux (acc : List Str) : List Str → List Str
  | [] => acc
  | e :: rest =>
    let e2 := normalizeEmit e
    extractEmitsAux (if acc.contains e2 then acc else acc ++ [e2]) rest

def extractEmitsModel (names : List Str) : List Str :=
  extractEmitsAux [] names

/- rewriteSFC top level: the splitter output is consulted for a script region
   before anything script-related runs; with no script (or empty content) the
   original file text is returned, whatever the rest of the pipeline would
   have produced.  The template rewriter output computed earlier is discarded
   in that branch, as in the source. -/

structure SFCParsed where
  template : Option Str
  script : Option Str
  styles : List Str
deriving DecidableEq

def rewriteSFCModel (sfc : Str) (parsed : SFCParsed) (templateOutput : Str)
    (assemble : SFCParsed → Str → Str) : Str :=
  match parsed.script with
  | none => sfc
  | some content => if content.isEmpty then sfc else assemble parsed templateOutput

/- The $set/$delete rewrite of the newer transformMethodBody variant
   (src/unnamed/part_002 lines 1372-1415): capture groups are the comma-free
   object and key runs (paren-free for the last field), each taken after the
   greedy leading-whitespace star; the key decides dot versus bracket form. -/

def fieldCap (run : Str) : Str :=
  match run.dropWhile isWsChar with
  | [] =>
    match run.reverse with
    | [] => []
    | c :: _ => [c]
  | c :: r => c :: r

def identB : Str → Bool
  | [] => false
  | c :: cs => identStartChar c && cs.all identTailChar

def simpleQuotedInner (t : Str) : Option Str :=
  match t with
  | q1 :: rest =>
    if isQuote q1 then
      match rest.reverse with
      | q2 :: revMid =>
        if isQuote q2 && identB revMid.reverse then some revMid.reverse else none
      | [] => none
    else none
  | [] => none

def vueSetRepl (obj key v : Str) : Str :=
  let trimmedKey := trimWs key
  match simpleQuotedInner trimmedKey with
  | some inner => obj ++ '.' :: inner ++ str " = " ++ v
  | none =>
    if identB trimmedKey then obj ++ '.' :: trimmedKey ++ str " = " ++ v
    else obj ++ '[' :: key ++ str "] = " ++ v

def vueDelRepl (obj key : Str) : Str :=
  let trimmedKey := trimWs key
  match simpleQuotedInner trimmedKey with
  | some inner => str "delete " ++ obj ++ '.' :: inner
  | none =>
    if identB trimmedKey then str "delete " ++ obj ++ '.' :: trimmedKey
    else str "delete " ++ obj ++ '[' :: key ++ [']']

def setParser (rest : Str) : Option (Str × Nat) :=
  let run1 := rest.takeWhile (fun c => !(c = ','))
  match rest.dropWhile (fun c => !(c = ',')) with
  | ',' :: r2 =>
    if run1.isEmpty then none
    else
      let run2 := r2.takeWhile (fun c => !(c = ','))
      match r2.dropWhile (fun c => !(c = ',')) with
      | ',' :: r4 =>
        if run2.isEmpty then none
        else
          let run3 := r4.takeWhile (fun c => !(c = ')'))
          match r4.dropWhile (fun c => !(c = ')')) with
          | ')' :: _ =>
            if run3.isEmpty then none
            else some (vueSetRepl (fieldCap run1) (fieldCap run2) (fieldCap run3),
              run1.length + 1 + run2.length + 1 + run3.length + 1)
          | _ => none
      | _ => none
  | _ => none

def delParser (rest : Str) : Option (Str × Nat) :=
  let run1 := rest.takeWhile (fun c => !(c = ','))
  match rest.dropWhile (fun c => !(c = ',')) with
  | ',' :: r2 =>
    if run1.isEmpty then none
    else
      let run2 := r2.takeWhile (fun c => !(c = ')'))
      match r2.dropWhile (fun c => !(c = ')')) with
      | ')' :: _ =>
        if run2.isEmpty then none
        else some (vueDelRepl (fieldCap run1) (fieldCap run2),
          run1.length + 1 + run2.length + 1)
      | _ => none
  | _ => none

def setPass (s : Str) : Str := scanRew (str "this.$set(") setParser s

def delPass (s : Str) : Str := scanRew (str "this.$delete(") delParser s

def setDeletePass (s : Str) : Str := delPass (setPass s)

/- Helper lemmas for the lifecycle assembler. -/

theorem assocLookup_mid {α : Type} (k k0 : Str) (v0 : α) (l1 l2 : List (Str × α))
    (h : k ≠ k0) :
    assocLookup k (l1 ++ (k0, v0) :: l2) = assocLookup k (l1 ++ l2) := by
  induction l1 with
  | nil => simp [assocLookup, h]
  | cons kv l1 ih =>
    cases kv with
    | mk k2 v2 =>
      by_cases hk : k = k2
      · simp [assocLookup, hk]
      · simp [assocLookup, hk, ih]

theorem hookEmit_congr (tf : Str → Str) (lm1 lm2 : List (Str × Str)) (e : Str × Str)
    (hbu : assocLookup (str "beforeUnmount") lm1 = assocLookup (str "beforeUnmount") lm2)
    (hbd : assocLookup (str "beforeDestroy") lm1 = assocLookup (str "beforeDestroy") lm2)
    (hum : assocLookup (str "unmounted") lm1 = assocLookup (str "unmounted") lm2) :
    hookEmit tf lm1 e = hookEmit tf lm2 e := by
  cases e with
  | mk name content => rw [hookEmit, hookEmit, hbu, hbd, hum]

theorem hookEmit_beforeCreate (tf : Str → Str) (lm : List (Str × Str)) (b : Str) :
    hookEmit tf lm (str "beforeCreate", b) = [] := by
  rw [hookEmit]
  rw [if_neg (by decide : ¬ (str "beforeCreate" = str "created"))]
  have hm : lifecycleMapping (str "beforeCreate") = none := by decide
  rw [hm]

theorem lifecycleImportStep_bc (acc : List Str) (b : Str) :
    lifecycleImportStep acc (str "beforeCreate", b) = acc := by
  rw [lifecycleImportStep]
  have hm : lifecycleMapping (str "beforeCreate") = none := by decide
  rw [hm]

theorem assembleLifecycle_singleton_bc (tf : Str → Str) (b : Str) :
    assembleLifecycle tf [(str "beforeCreate", b)] = [] := by
  rw [assembleLifecycle]
  rw [if_neg (by simp : ¬ (([(str "beforeCreate", b)] : List (Str × Str)).isEmpty = true))]
  rw [createdPart]
  have h1 : assocLookup (str "created") [(str "beforeCreate", b)] = (none : Option Str) := by
    rw [assocLookup, if_neg (by decide : ¬ (str "created" = str "beforeCreate"))]
    rfl
  rw [h1]
  simp [hookEmit_beforeCreate]

/-- C10: a beforeCreate lifecycle hook is recognized and extracted into the
component model, but the assembler silently drops it: it has no entry in the
hook-registration mapping, the lifecycle section of the output is identical to
the one assembled without the hook, and the lifecycle import aggregation is
likewise unchanged, so no framework hook import is added for it. -/
theorem c10_beforecreate_dropped (tf : Str → Str) (l1 l2 : List (Str × Str))
    (b : Str) (acc0 : List Str) :
    assembleLifecycle tf (l1 ++ (str "beforeCreate", b) :: l2) =
      assembleLifecycle tf (l1 ++ l2) ∧
    lifecycleImports acc0 (l1 ++ (str "beforeCreate", b) :: l2) =
      lifecycleImports acc0 (l1 ++ l2) ∧
    isLifecycleMethodB (str "beforeCreate") = true ∧
    lifecycleMapping (str "beforeCreate") = none := by
  refine ⟨?_, ?_, by decide, by decide⟩
  · have hbu := assocLookup_mid (str "beforeUnmount") (str "beforeCreate") b l1 l2 (by decide)
    have hbd := assocLookup_mid (str "beforeDestroy") (str "beforeCreate") b l1 l2 (by decide)
    have hum := assocLookup_mid (str "unmounted") (str "beforeCreate") b l1 l2 (by decide)
    have hcr := assocLookup_mid (str "created") (str "beforeCreate") b l1 l2 (by decide)
    have hcongr : ∀ x, hookEmit tf (l1 ++ (str "beforeCreate", b) :: l2) x =
        hookEmit tf (l1 ++ l2) x :=
      fun x => hookEmit_congr tf _ _ x hbu hbd hum
    by_cases hE : l1 ++ l2 = []
    · obtain ⟨h1, h2⟩ := List.append_eq_nil.mp hE
      subst h1; subst h2
      simp only [List.nil_append]
      rw [assembleLifecycle_singleton_bc]
      rfl
    · have hne1 : ¬ ((l1 ++ (str "beforeCreate", b) :: l2).isEmpty = true) := by
        cases l1 <;> simp
      have hne2 : ¬ ((l1 ++ l2).isEmpty = true) := by
        simpa [List.isEmpty_iff] using hE
      rw [assembleLifecycle, assembleLifecycle, if_neg hne1, if_neg hne2]
      have hcp : createdPart tf (l1 ++ (str "beforeCreate", b) :: l2) =
          createdPart tf (l1 ++ l2) := by
        rw [createdPart, createdPart, hcr]
      rw [hcp]
      congr 1
      have hmap1 : l1.map (hookEmit tf (l1 ++ (str "beforeCreate", b) :: l2)) =
          l1.map (hookEmit tf (l1 ++ l2)) :=
        List.map_congr_left (fun x _ => hcongr x)
      have hmap2 : l2.map (hookEmit tf (l1 ++ (str "beforeCreate", b) :: l2)) =
          l2.map (hookEmit tf (l1 ++ l2)) :=
        List.map_congr_left (fun x _ => hcongr x)
      have hmid : hookEmit tf (l1 ++ (str "beforeCreate", b) :: l2)
          (str "beforeCreate", b) = [] :=
        (hcongr _).trans (hookEmit_beforeCreate tf (l1 ++ l2) b)
      rw [List.map_append, List.map_cons, hmap1, hmap2, hmid]
      rw [List.map_append]
      rw [List.flatten_append, List.flatten_append, List.flatten_cons, List.nil_append]
  · rw [lifecycleImports, lifecycleImports, List.foldl_append, List.foldl_append,
      List.foldl_cons]
    rw [lifecycleImportStep_bc]

/- Baseline parameter set: a component with no flags, no store, and empty
   tracked categories. -/

def trivParams : TransformParams :=
  { hasAxios := false, hasEventBus := false, hasRefs := false, hasConfig := false,
    hasNextTick := false, hasRoute := false, hasRouter := false,
    optionsVuex := none, methodNames := [], dataProps := [], computedNames := [],
    vuexComputed := [], vuexMethodProps := [], propsNames := none,
    mixinImports := [] }

/-- C5: when the structural splitter reports no script region, rewriteSFC
returns the original file text unchanged, independently of the template
rewriter output and of whatever the rest of the pipeline would assemble. -/
theorem c5_no_script_short_circuit (sfc : Str) (parsed : SFCParsed)
    (templateOutput : Str) (assemble : SFCParsed → Str → Str)
    (h : parsed.script = none) :
    rewriteSFCModel sfc parsed templateOutput assemble = sfc := by
  rw [rewriteSFCModel, h]

theorem c5_no_script_short_circuit_witness :
    rewriteSFCModel (str "<template><h1>Hi</h1></template>")
      ⟨some (str "<h1>Hi</h1>"), none, []⟩ (str "<h1>Hi</h1>")
      (fun _ t => t) = str "<template><h1>Hi</h1></template>" :=
  c5_no_script_short_circuit _ _ _ _ rfl

/-- C9: evaluation of the mixin destructuring section on a mixin whose symbol
priceRaw is used in the template and whose symbol price is used only in
script: the emitted destructuring contains only priceRaw.  The section
filters the configured symbol list against the template variable set alone
(script usage is not even an input of this code), contradicting the claim
that a symbol used only in script is still destructured. -/
theorem c9_mixin_template_only_eval :
    mixinDestructure [str "priceRaw", str "price"] (str "usePrice")
        [str "h1", str "title", str "priceRaw"] =
      str "\nconst \x7b priceRaw \x7d = usePrice();" ∧
    ([str "priceRaw", str "price"]).filter
        (fun i => ([str "h1", str "title", str "priceRaw"]).contains i) =
      [str "priceRaw"] := by
  constructor
  · decide
  · decide

/- Store configuration with two namespaces, user first and cart second, and a
   bulk mapActions entry mapping checkoutEvent from the cart namespace. -/

def vuexTwoNs : List (Str × StoreCfg) :=
  [(str "user", { storeName := str "user", importName := str "useUserStore" }),
   (str "cart", { storeName := str "cart", importName := str "useCartStore" })]

def c1Params : TransformParams :=
  { trivParams with
    optionsVuex := some vuexTwoNs,
    vuexMethodProps :=
      [{ namespaceName := some (str "cart"),
         mappings := [(str "checkoutEvent", str "cart/checkoutEvent")] }] }

/-- C1: evaluation of the body rewriter on a lifecycle body calling a method
bulk-mapped from the cart namespace, with both the user and cart namespaces
configured (user first).  The rewriter qualifies the call with the user
namespace store instance, never consulting the mapping entry that records
the cart namespace: the loop prefixes every remaining this-qualified call
with the instance of whichever namespace it is iterating, so the first
namespace captures them all.  This contradicts the claim (and the repository
test suite, which expects the cart instance here). -/
theorem c1_cross_namespace_eval :
    lifecycleTf c1Params (str "\x7b\nthis.checkoutEvent();\n\x7d") =
      str "userStore.checkoutEvent();" ∧
    containsSub (str "userStore.checkoutEvent(")
      (lifecycleTf c1Params (str "\x7b\nthis.checkoutEvent();\n\x7d")) = true ∧
    containsSub (str "cartStore")
      (lifecycleTf c1Params (str "\x7b\nthis.checkoutEvent();\n\x7d")) = false ∧
    c1Params.vuexMethodProps.any (fun md =>
      (assocLookup (str "checkoutEvent") md.mappings).isSome &&
      md.namespaceName = some (str "cart")) = true := by
  refine ⟨by decide, by decide, by decide, by decide⟩

/-- C3: evaluation of the lifecycle assembler on the two merge situations the
claim describes.  A component declaring beforeDestroy and beforeUnmount gets
a single onBeforeUnmount registration containing only the beforeUnmount
body; the transformed beforeDestroy content is computed and then discarded,
so teardownA appears nowhere.  A component declaring destroyed and unmounted
gets a single onUnmounted registration containing only the unmounted body
(the merge branch consults beforeDestroy, not destroyed), so teardownC is
likewise lost.  Both contradict the claim that the merged registration
contains the transformed content of both hooks, and the source comments
stating the merge intent. -/
theorem c3_merge_code_eval :
    (assembleLifecycle (lifecycleTf trivParams)
        [(str "beforeDestroy", str "\x7b\nteardownA();\n\x7d"),
         (str "beforeUnmount", str "\x7b\nteardownB();\n\x7d")] =
      str "\n\nonBeforeUnmount(() => \x7b\nteardownB();\n\x7d);" ∧
     containsSub (str "teardownA")
       (assembleLifecycle (lifecycleTf trivParams)
         [(str "beforeDestroy", str "\x7b\nteardownA();\n\x7d"),
          (str "beforeUnmount", str "\x7b\nteardownB();\n\x7d")]) = false) ∧
    (assembleLifecycle (lifecycleTf trivParams)
        [(str "destroyed", str "\x7b\nteardownC();\n\x7d"),
         (str "unmounted", str "\x7b\nteardownD();\n\x7d")] =
      str "\n\nonUnmounted(() => \x7b\nteardownD();\n\x7d);" ∧
     containsSub (str "teardownC")
       (assembleLifecycle (lifecycleTf trivParams)
         [(str "destroyed", str "\x7b\nteardownC();\n\x7d"),
          (str "unmounted", str "\x7b\nteardownD();\n\x7d")]) = false) := by
  refine ⟨⟨by decide, by decide⟩, ⟨by decide, by decide⟩⟩

/- Injectivity of the per-property asyncData declaration text. -/

theorem asyncDecl_inj : Function.Injective asyncDecl := by
  intro a b h
  rw [asyncDecl, asyncDecl] at h
  simp only [List.append_assoc] at h
  have hlen : a.length = b.length := by
    have hl := congrArg List.length h
    simp [List.length_append] at hl
    omega
  exact (List.append_inj (List.append_cancel_left h) hlen).1

theorem count_asyncDecl (l : List Str) (x : Str) :
    (l.map asyncDecl).count (asyncDecl x) = l.count x := by
  induction l with
  | nil => rfl
  | cons a t ih =>
    rw [List.map_cons, List.count_cons, List.count_cons, ih]
    by_cases h : a = x
    · simp [h]
    · have hne : asyncDecl a ≠ asyncDecl x := fun hc => h (asyncDecl_inj hc)
      simp [h, hne]

theorem count_nodup_mem (l : List Str) (x : Str) (hnd : l.Nodup) (hx : x ∈ l) :
    l.count x = 1 := by
  induction l with
  | nil => cases hx
  | cons a t ih =>
    rw [List.count_cons]
    rcases List.mem_cons.mp hx with h | h
    · subst h
      have hnotin : x ∉ t := (List.nodup_cons.mp hnd).1
      have hz : t.count x = 0 := List.count_eq_zero.mpr hnotin
      simp [hz]
    · have ha : a ≠ x := by
        rintro rfl
        exact (List.nodup_cons.mp hnd).1 h
      have := ih (List.nodup_cons.mp hnd).2 h
      simp [this, ha]

/-- C4: names returned by the asyncData block never receive a plain
data-property reactive declaration (the data section filters them out, even
when the same name is declared in data()), and each returned name receives
exactly one reactive declaration sourced from the useAsyncData result (when
the returned-name list has no duplicates, which is what a single return
object with property-name set P yields). -/
theorem c4_asyncdata_exclusion (dataProps : List (Str × Str)) (asyncProps : List Str)
    (p2 : Str) (hp : p2 ∈ asyncProps) (hnd : asyncProps.Nodup) :
    (∀ q d, (q, d) ∈ dataDeclPairs dataProps asyncProps → q ∉ asyncProps) ∧
    asyncDecl p2 ∈ asyncRefDecls asyncProps ∧
    (asyncRefDecls asyncProps).count (asyncDecl p2) = 1 := by
  refine ⟨?_, ?_, ?_⟩
  · intro q d hqd hmem
    rw [dataDeclPairs, List.mem_filterMap] at hqd
    obtain ⟨kv, _, hkv⟩ := hqd
    by_cases hc : asyncProps.contains kv.1
    · rw [if_pos hc] at hkv
      exact absurd hkv (by simp)
    · rw [if_neg hc] at hkv
      have hq : kv.1 = q := congrArg Prod.fst (Option.some.inj hkv)
      rw [hq] at hc
      exact hc (by simpa using hmem)
  · rw [asyncRefDecls]
    exact List.mem_map_of_mem asyncDecl hp
  · rw [asyncRefDecls, count_asyncDecl]
    exact count_nodup_mem asyncProps p2 hnd hp

theorem c4_asyncdata_exclusion_witness :
    (∀ q d, (q, d) ∈ dataDeclPairs [(str "title", str "null"), (str "count", str "0")]
        [str "title", str "links"] → q ∉ [str "title", str "links"]) ∧
    asyncDecl (str "title") ∈ asyncRefDecls [str "title", str "links"] ∧
    (asyncRefDecls [str "title", str "links"]).count (asyncDecl (str "title")) = 1 :=
  c4_asyncdata_exclusion [(str "title", str "null"), (str "count", str "0")]
    [str "title", str "links"] (str "title") (by decide) (by decide)

/- Facts about emit-name normalization and the collected emits list. -/

theorem normalizeEmit_ne_input (e : Str) : normalizeEmit e ≠ str "input" := by
  rw [normalizeEmit]
  by_cases h : e = str "input"
  · rw [if_pos h]; decide
  · rw [if_neg h]; exact h

theorem mem_extractEmitsAux_mono : ∀ (names : List Str) (acc : List Str) (x : Str),
    x ∈ acc → x ∈ extractEmitsAux acc names := by
  intro names
  induction names with
  | nil => intro acc x hx; exact hx
  | cons e rest ih =>
    intro acc x hx
    rw [extractEmitsAux]
    apply ih
    by_cases hc : acc.contains (normalizeEmit e)
    · rw [if_pos hc]; exact hx
    · rw [if_neg hc]; exact List.mem_append_left _ hx

theorem not_input_extractEmitsAux : ∀ (names : List Str) (acc : List Str),
    (str "input") ∉ acc → (str "input") ∉ extractEmitsAux acc names := by
  intro names
  induction names with
  | nil => intro acc h; exact h
  | cons e rest ih =>
    intro acc h
    rw [extractEmitsAux]
    apply ih
    by_cases hc : acc.contains (normalizeEmit e)
    · rw [if_pos hc]; exact h
    · rw [if_neg hc]
      intro hmem
      rcases List.mem_append.mp hmem with h1 | h2
      · exact h h1
      · have h2x : str "input" = normalizeEmit e := by simpa using h2
        exact normalizeEmit_ne_input e h2x.symm

theorem mem_norm_extractEmitsAux : ∀ (names : List Str) (acc : List Str) (e : Str),
    e ∈ names → normalizeEmit e ∈ extractEmitsAux acc names := by
  intro names
  induction names with
  | nil => intro acc e h; cases h
  | cons a rest ih =>
    intro acc e h
    rcases List.mem_cons.mp h with h1 | h2
    · subst h1
      rw [extractEmitsAux]
      apply mem_extractEmitsAux_mono
      by_cases hc : acc.contains (normalizeEmit e)
      · rw [if_pos hc]
        exact (by simpa using hc)
      · rw [if_neg hc]
        exact List.mem_append_right _ (by simp)
    · rw [extractEmitsAux]
      exact ih _ e h2

/- Exact evaluation of the emit-call parser on a canonical call text. -/

theorem emitParser_args (nm payload : Str) (hnm : nm ≠ [])
    (hqn : ∀ c ∈ nm, (!(isQuote c)) = true)
    (hpay : ∀ c ∈ payload, (!(c = ')' || c = '\n')) = true) :
    emitParser ('\x27' :: (nm ++ '\x27' :: ',' :: (payload ++ [')']))) =
      some (str "emit(\x27" ++ normalizeEmit nm ++ str "\x27" ++ ',' :: payload ++ [')'],
        ('\x27' :: (nm ++ '\x27' :: ',' :: (payload ++ [')']))).length) := by
  have hqws : isWsChar '\x27' = false := by decide
  have h1 : ('\x27' :: (nm ++ '\x27' :: ',' :: (payload ++ [')']))).takeWhile isWsChar = [] :=
    takeWhile_head_false _ hqws
  have h2 : ('\x27' :: (nm ++ '\x27' :: ',' :: (payload ++ [')']))).dropWhile isWsChar =
      '\x27' :: (nm ++ '\x27' :: ',' :: (payload ++ [')'])) :=
    dropWhile_head_false _ hqws
  have h3 : (nm ++ '\x27' :: ',' :: (payload ++ [')'])).takeWhile (fun c => !(isQuote c)) = nm :=
    takeWhile_run nm _ _ hqn (by decide)
  have h4 : (nm ++ '\x27' :: ',' :: (payload ++ [')'])).dropWhile (fun c => !(isQuote c)) =
      '\x27' :: ',' :: (payload ++ [')']) :=
    dropWhile_run nm _ _ hqn (by decide)
  have h5 : nm.isEmpty = false := by
    cases nm with
    | nil => exact absurd rfl hnm
    | cons c r => rfl
  have h6 : (',' :: (payload ++ [')'])).takeWhile isWsChar = [] :=
    takeWhile_head_false _ (by decide)
  have h7 : (',' :: (payload ++ [')'])).dropWhile isWsChar = ',' :: (payload ++ [')']) :=
    dropWhile_head_false _ (by decide)
  have h8 : (payload ++ [')']).takeWhile (fun c => !(c = ')' || c = '\n')) = payload := by
    have : (payload ++ ')' :: []).takeWhile (fun c => !(c = ')' || c = '\n')) = payload :=
      takeWhile_run payload _ _ hpay (by decide)
    simpa using this
  have h9 : (payload ++ [')']).dropWhile (fun c => !(c = ')' || c = '\n')) = [')'] := by
    have : (payload ++ ')' :: []).dropWhile (fun c => !(c = ')' || c = '\n')) = ')' :: [] :=
      dropWhile_run payload _ _ hpay (by decide)
    simpa using this
  simp only [emitParser, h1, h2, h3, h4, h5, h6, h7, h8, h9]
  rw [if_pos (by decide : isQuote '\x27' = true)]
  simp only [Bool.not_false, Bool.and_true, Bool.and_self, if_true]
  rw [if_pos (by decide : isQuote '\x27' = true)]
  refine congrArg some (congrArg (Prod.mk _) ?_)
  simp [List.length_append, List.length_cons]
  omega

theorem emitParser_noargs (nm : Str) (hnm : nm ≠ [])
    (hqn : ∀ c ∈ nm, (!(isQuote c)) = true) :
    emitParser ('\x27' :: (nm ++ '\x27' :: [')'])) =
      some (str "emit(\x27" ++ normalizeEmit nm ++ str "\x27)",
        ('\x27' :: (nm ++ '\x27' :: [')'])).length) := by
  have hqws : isWsChar '\x27' = false := by decide
  have h1 : ('\x27' :: (nm ++ '\x27' :: [')'])).takeWhile isWsChar = [] :=
    takeWhile_head_false _ hqws
  have h2 : ('\x27' :: (nm ++ '\x27' :: [')'])).dropWhile isWsChar =
      '\x27' :: (nm ++ '\x27' :: [')']) :=
    dropWhile_head_false _ hqws
  have h3 : (nm ++ '\x27' :: [')']).takeWhile (fun c => !(isQuote c)) = nm :=
    takeWhile_run nm _ _ hqn (by decide)
  have h4 : (nm ++ '\x27' :: [')']).dropWhile (fun c => !(isQuote c)) = '\x27' :: [')'] :=
    dropWhile_run nm _ _ hqn (by decide)
  have h5 : nm.isEmpty = false := by
    cases nm with
    | nil => exact absurd rfl hnm
    | cons c r => rfl
  have h6 : ([')'] : Str).takeWhile isWsChar = [] := takeWhile_head_false _ (by decide)
  have h7 : ([')'] : Str).dropWhile isWsChar = [')'] := dropWhile_head_false _ (by decide)
  simp only [emitParser, h1, h2, h3, h4, h5, h6, h7]
  rw [if_pos (by decide : isQuote '\x27' = true)]
  simp only [Bool.not_false, Bool.and_true, Bool.and_self, if_true]
  rw [if_pos (by decide : isQuote '\x27' = true)]
  refine congrArg some (congrArg (Prod.mk _) ?_)
  simp [List.length_append, List.length_cons]
  omega

/-- C7: the input event name is normalized to update:value everywhere: the
emits declaration collected from this-qualified emit call sites never
contains input and contains update:value whenever a call site used input;
and the body rewrite of an emit call (with or without payload arguments)
emits the normalized event name in the rewritten call. -/
theorem c7_input_normalization :
    (∀ names : List Str,
      (str "input") ∉ extractEmitsModel names ∧
      ((str "input") ∈ names → (str "update:value") ∈ extractEmitsModel names)) ∧
    (∀ nm payload : Str, nm ≠ [] →
      (∀ c ∈ nm, isQuote c = false) →
      (∀ c ∈ payload, c ≠ ')' ∧ c ≠ '\n') →
      emitPass (str "this.$emit(" ++ '\x27' :: (nm ++ '\x27' :: ',' :: (payload ++ [')']))) =
        str "emit(\x27" ++ normalizeEmit nm ++ str "\x27" ++ ',' :: payload ++ [')'] ∧
      emitPass (str "this.$emit(" ++ '\x27' :: (nm ++ '\x27' :: [')'])) =
        str "emit(\x27" ++ normalizeEmit nm ++ str "\x27)") := by
  constructor
  · intro names
    constructor
    · exact not_input_extractEmitsAux names [] (by simp)
    · intro h
      have hmem := mem_norm_extractEmitsAux names [] (str "input") h
      simpa [extractEmitsModel, normalizeEmit] using hmem
  · intro nm payload hnm hq hp
    have hqn : ∀ c ∈ nm, (!(isQuote c)) = true := fun c hc => by simp [hq c hc]
    have hpay : ∀ c ∈ payload, (!(c = ')' || c = '\n')) = true := fun c hc => by
      simp [(hp c hc).1, (hp c hc).2]
    constructor
    · exact scanRew_exact 't' (str "his.$emit(") emitParser _ _
        (emitParser_args nm payload hnm hqn hpay)
    · exact scanRew_exact 't' (str "his.$emit(") emitParser _ _
        (emitParser_noargs nm hnm hqn)

theorem c7_input_normalization_witness :
    (str "input") ∉ extractEmitsModel [str "input", str "close"] ∧
    (str "update:value") ∈ extractEmitsModel [str "input", str "close"] ∧
    emitPass (str "this.$emit(" ++ '\x27' ::
        (str "input" ++ '\x27' :: ',' :: (str "val" ++ [')']))) =
      str "emit(\x27" ++ normalizeEmit (str "input") ++ str "\x27" ++
        ',' :: str "val" ++ [')'] :=
  ⟨(c7_input_normalization.1 [str "input", str "close"]).1,
   (c7_input_normalization.1 [str "input", str "close"]).2 (by decide),
   (c7_input_normalization.2 (str "input") (str "val") (by decide) (by decide)
     (by decide)).1⟩

def c2Params : TransformParams :=
  { trivParams with dataProps := [(str "count", str "0")] }

/- Parameters with a bulk-mapped action local name fetchUser: the mapping
   lives in vuexMethodProps, which the tracked-name lookup never consults. -/

def c2ActParams : TransformParams :=
  { trivParams with vuexMethodProps :=
      [⟨some (str "user"), [(str "fetchUser", str "user/fetchUser")]⟩] }

/-- C2 counterexample: a line whose first this-dot-name-followed-by-terminator
match is the tracked data property count, but which also contains the
untracked reference this.unknown (followed by a comma, which the flagging
pattern does not accept as a terminator).  The claim requires a diagnostic
naming unknown; the pass leaves the line unchanged and emits no diagnostic,
because only the first match of the pattern is consulted. -/
theorem c2_flagging_counterexample :
    containsSub (str "this.unknown")
      (str "console.log(this.unknown, this.count)") = true ∧
    c2Params.methodNames.contains (str "unknown") = false ∧
    isVariableDefinedB c2Params (str "unknown") = false ∧
    flagPass c2Params (str "console.log(this.unknown, this.count)") =
      str "console.log(this.unknown, this.count)" ∧
    containsSub (str "FIXME")
      (flagPass c2Params (str "console.log(this.unknown, this.count)")) = false := by
  refine ⟨by decide, by decide, by decide, by decide, by decide⟩

/-- C2 amended: flagging is driven, per line, by the first occurrence of a
this-qualified word followed by whitespace, a semicolon or a closing
parenthesis.  The tracked set consulted for that name is exactly the methods
list, the data properties whose initializer text is nonempty, the computed
property names, the bulk-mapped state/getter local names whose mapping text
is nonempty, the prop names and the mixin symbols; the bulk-mapped
action/mutation local names are not an input of the decision at all (last
conjunct), so such a name in first-match position is flagged like an unknown.
When the first matched name is outside the tracked set, the line is replaced
by a FIXME comment naming the identifier followed by the original trimmed
statement text behind a comment marker, so the diagnostic names the
identifier and the output retains the statement text; a line whose first
match is in the tracked set, or with no match, passes through the flagging
stage unchanged, and the pass processes each line of the body
independently. -/
theorem c2_amended_flagging (p : TransformParams) (body line name : Str)
    (hfind : findThisProp (trimWs line) = some name)
    (huntracked : (p.methodNames.contains name || isVariableDefinedB p name) = false) :
    flagPass p body = joinNl ((splitOnNl body).map (flagLine p)) ∧
    flagLine p line =
      leadWs line ++ str "// FIXME: undefined variable \x27" ++ name ++ str "\x27" ++
        '\n' :: (leadWs line ++ str "// " ++ trimWs line) ∧
    containsSub name (flagLine p line) = true ∧
    containsSub (trimWs line) (flagLine p line) = true ∧
    (∀ l2 n2, findThisProp (trimWs l2) = some n2 →
      (p.methodNames.contains n2 || isVariableDefinedB p n2) = true →
      flagLine p l2 = l2) ∧
    (∀ l2, findThisProp (trimWs l2) = none → flagLine p l2 = l2) ∧
    (∀ mps l2, flagLine { p with vuexMethodProps := mps } l2 = flagLine p l2) := by
  obtain ⟨hm, hv⟩ := Bool.or_eq_false_iff.mp huntracked
  have heq : flagLine p line =
      leadWs line ++ str "// FIXME: undefined variable \x27" ++ name ++ str "\x27" ++
        '\n' :: (leadWs line ++ str "// " ++ trimWs line) := by
    simp only [flagLine, hfind]
    rw [if_neg (by rw [hm]; simp), if_neg (by rw [hv]; simp)]
    simp only [fixmeFlag, List.append_assoc]
  refine ⟨rfl, heq, ?_, ?_, ?_, ?_, fun mps l2 => rfl⟩
  · rw [heq]
    apply containsSub_of_piece
    exact ⟨leadWs line ++ str "// FIXME: undefined variable \x27",
      str "\x27" ++ '\n' :: (leadWs line ++ str "// " ++ trimWs line),
      by simp [List.append_assoc]⟩
  · rw [heq]
    apply containsSub_of_piece
    exact ⟨leadWs line ++ str "// FIXME: undefined variable \x27" ++ name ++ str "\x27" ++
      '\n' :: (leadWs line ++ str "// "), [], by simp [List.append_assoc]⟩
  · intro l2 n2 hfind2 htracked
    simp only [flagLine, hfind2]
    cases hcm : p.methodNames.contains n2 with
    | true => simp
    | false =>
      have hvar : isVariableDefinedB p n2 = true := by
        rcases Bool.or_eq_true_iff.mp htracked with h | h
        · rw [hcm] at h; cases h
        · exact h
      simp [hvar]
  · intro l2 hnone
    simp only [flagLine, hnone]

theorem c2_amended_flagging_witness :
    c2ActParams.vuexMethodProps.any
      (fun md => (assocLookup (str "fetchUser") md.mappings).isSome) = true ∧
    flagLine c2ActParams (str "promise.then(this.fetchUser);") =
      leadWs (str "promise.then(this.fetchUser);") ++
        str "// FIXME: undefined variable \x27" ++ str "fetchUser" ++ str "\x27" ++
        '\n' :: (leadWs (str "promise.then(this.fetchUser);") ++ str "// " ++
          trimWs (str "promise.then(this.fetchUser);")) ∧
    containsSub (str "fetchUser")
      (flagLine c2ActParams (str "promise.then(this.fetchUser);")) = true ∧
    containsSub (trimWs (str "promise.then(this.fetchUser);"))
      (flagLine c2ActParams (str "promise.then(this.fetchUser);")) = true := by
  have h := c2_amended_flagging c2ActParams (str "promise.then(this.fetchUser);")
    (str "promise.then(this.fetchUser);") (str "fetchUser") (by decide) (by decide)
  exact ⟨by decide, h.2.1, h.2.2.1, h.2.2.2.1⟩

/- Character facts used for the $set/$delete field analysis. -/

theorem quote_noSpecial {c : Char} (h : isQuote c = true) :
    isWsChar c = false ∧ c ≠ ',' ∧ c ≠ ')' := by
  have hc : c = '\x27' ∨ c = '\x22' := by simpa [isQuote] using h
  rcases hc with rfl | rfl
  · exact ⟨by decide, by decide, by decide⟩
  · exact ⟨by decide, by decide, by decide⟩

theorem identTail_noSpecial {c : Char} (h : identTailChar c = true) :
    c ≠ ',' ∧ c ≠ ')' ∧ isQuote c = false ∧ isWsChar c = false := by
  refine ⟨?_, ?_, ?_, ?_⟩
  · intro hc; subst hc; exact absurd h (by decide)
  · intro hc; subst hc; exact absurd h (by decide)
  · cases hq : isQuote c with
    | false => rfl
    | true =>
      have hc : c = '\x27' ∨ c = '\x22' := by simpa [isQuote] using hq
      rcases hc with rfl | rfl <;> exact absurd h (by decide)
  · cases hw : isWsChar c with
    | false => rfl
    | true =>
      have hc : ((((c = ' ' ∨ c = '\t') ∨ c = '\n') ∨ c = '\x0d') ∨ c = '\x0b') ∨
          c = '\x0c' := by
        simpa [isWsChar] using hw
      rcases hc with ((((rfl | rfl) | rfl) | rfl) | rfl) | rfl <;> exact absurd h (by decide)

theorem identStart_tail {c : Char} (h : identStartChar c = true) :
    identTailChar c = true := by
  simp [identTailChar, h]

theorem fieldCap_self {run : Str} (hne : run ≠ []) (hdw : run.dropWhile isWsChar = run) :
    fieldCap run = run := by
  rw [fieldCap, hdw]
  cases run with
  | nil => exact absurd rfl hne
  | cons c r => rfl

/- Exact evaluation of the $delete and $set argument parsers on canonical
   call texts. -/

theorem delParser_canonical (obj key : Str)
    (hobj : obj ≠ []) (hobjc : ∀ c ∈ obj, (!(c = ',')) = true)
    (hobjw : obj.dropWhile isWsChar = obj)
    (hkey : key ≠ []) (hkeyc : ∀ c ∈ key, (!(c = ')')) = true)
    (hkeyw : key.dropWhile isWsChar = key) :
    delParser (obj ++ ',' :: (key ++ [')'])) =
      some (vueDelRepl obj key, (obj ++ ',' :: (key ++ [')'])).length) := by
  have h1 : (obj ++ ',' :: (key ++ [')'])).takeWhile (fun c => !(c = ',')) = obj :=
    takeWhile_run obj _ _ hobjc (by decide)
  have h2 : (obj ++ ',' :: (key ++ [')'])).dropWhile (fun c => !(c = ',')) =
      ',' :: (key ++ [')']) :=
    dropWhile_run obj _ _ hobjc (by decide)
  have h3 : (key ++ [')']).takeWhile (fun c => !(c = ')')) = key := by
    have := takeWhile_run key ')' [] hkeyc (by decide)
    simpa using this
  have h4 : (key ++ [')']).dropWhile (fun c => !(c = ')')) = [')'] := by
    have := dropWhile_run key ')' [] hkeyc (by decide)
    simpa using this
  have h5 : obj.isEmpty = false := by
    cases obj with
    | nil => exact absurd rfl hobj
    | cons c r => rfl
  have h6 : key.isEmpty = false := by
    cases key with
    | nil => exact absurd rfl hkey
    | cons c r => rfl
  simp only [delParser, h1, h2, h3, h4, h5, h6, Bool.false_eq_true, if_false,
    fieldCap_self hobj hobjw, fieldCap_self hkey hkeyw]
  refine congrArg some (congrArg (Prod.mk _) ?_)
  simp [List.length_append, List.length_cons]
  omega

theorem setParser_canonical (obj key v : Str)
    (hobj : obj ≠ []) (hobjc : ∀ c ∈ obj, (!(c = ',')) = true)
    (hobjw : obj.dropWhile isWsChar = obj)
    (hkey : key ≠ []) (hkeyc : ∀ c ∈ key, (!(c = ',')) = true)
    (hkeyw : key.dropWhile isWsChar = key)
    (hv : v ≠ []) (hvc : ∀ c ∈ v, (!(c = ')')) = true)
    (hvw : v.dropWhile isWsChar = v) :
    setParser (obj ++ ',' :: (key ++ ',' :: (v ++ [')']))) =
      some (vueSetRepl obj key v, (obj ++ ',' :: (key ++ ',' :: (v ++ [')']))).length) := by
  have h1 : (obj ++ ',' :: (key ++ ',' :: (v ++ [')']))).takeWhile (fun c => !(c = ',')) = obj :=
    takeWhile_run obj _ _ hobjc (by decide)
  have h2 : (obj ++ ',' :: (key ++ ',' :: (v ++ [')']))).dropWhile (fun c => !(c = ',')) =
      ',' :: (key ++ ',' :: (v ++ [')'])) :=
    dropWhile_run obj _ _ hobjc (by decide)
  have h3 : (key ++ ',' :: (v ++ [')'])).takeWhile (fun c => !(c = ',')) = key :=
    takeWhile_run key _ _ hkeyc (by decide)
  have h4 : (key ++ ',' :: (v ++ [')'])).dropWhile (fun c => !(c = ',')) =
      ',' :: (v ++ [')']) :=
    dropWhile_run key _ _ hkeyc (by decide)
  have h5 : (v ++ [')']).takeWhile (fun c => !(c = ')')) = v := by
    have := takeWhile_run v ')' [] hvc (by decide)
    simpa using this
  have h6 : (v ++ [')']).dropWhile (fun c => !(c = ')')) = [')'] := by
    have := dropWhile_run v ')' [] hvc (by decide)
    simpa using this
  have h7 : obj.isEmpty = false := by
    cases obj with
    | nil => exact absurd rfl hobj
    | cons c r => rfl
  have h8 : key.isEmpty = false := by
    cases key with
    | nil => exact absurd rfl hkey
    | cons c r => rfl
  have h9 : v.isEmpty = false := by
    cases v with
    | nil => exact absurd rfl hv
    | cons c r => rfl
  simp only [setParser, h1, h2, h3, h4, h5, h6, h7, h8, h9, Bool.false_eq_true, if_false,
    fieldCap_self hobj hobjw, fieldCap_self hkey hkeyw, fieldCap_self hv hvw]
  refine congrArg some (congrArg (Prod.mk _) ?_)
  simp [List.length_append, List.length_cons]
  omega

theorem identB_chars {w : Str} (h : identB w = true) :
    ∀ c ∈ w, identTailChar c = true := by
  cases w with
  | nil => cases h
  | cons c cs =>
    intro x hx
    have hsplit : identStartChar c = true ∧ ∀ x ∈ cs, identTailChar x = true := by
      simpa [identB] using h
    rcases List.mem_cons.mp hx with rfl | hxm
    · exact identStart_tail hsplit.1
    · exact hsplit.2 x hxm

theorem trimWs_all_nonws {s : Str} (h : ∀ c ∈ s, isWsChar c = false) : trimWs s = s := by
  apply trimWs_eq_self
  · cases s with
    | nil => rfl
    | cons c r => exact dropWhile_head_false _ (h c (by simp))
  · cases hrev : s.reverse with
    | nil => simp [hrev]
    | cons d r =>
      refine dropWhile_head_false _ (h d ?_)
      have : d ∈ s.reverse := by rw [hrev]; simp
      simpa using this

theorem simpleQuotedInner_quoted (q1 q2 : Char) (inner : Str)
    (hq1 : isQuote q1 = true) (hq2 : isQuote q2 = true) (hid : identB inner = true) :
    simpleQuotedInner (q1 :: (inner ++ [q2])) = some inner := by
  simp only [simpleQuotedInner]
  rw [if_pos hq1]
  have hrev : (inner ++ [q2]).reverse = q2 :: inner.reverse := by simp
  rw [hrev]
  simp only [List.reverse_reverse]
  rw [if_pos (by simp [hq2, hid])]

theorem vueDelRepl_quoted (obj inner : Str) (q1 q2 : Char)
    (hq1 : isQuote q1 = true) (hq2 : isQuote q2 = true) (hid : identB inner = true) :
    vueDelRepl obj (q1 :: (inner ++ [q2])) = str "delete " ++ obj ++ '.' :: inner := by
  have hnonws : ∀ c ∈ q1 :: (inner ++ [q2]), isWsChar c = false := by
    intro c hc
    rcases List.mem_cons.mp hc with rfl | hc2
    · exact (quote_noSpecial hq1).1
    · rcases List.mem_append.mp hc2 with hc3 | hc4
      · exact (identTail_noSpecial (identB_chars hid c hc3)).2.2.2
      · rw [List.mem_singleton.mp hc4]; exact (quote_noSpecial hq2).1
  have htrim := trimWs_all_nonws hnonws
  simp only [vueDelRepl, htrim, simpleQuotedInner_quoted q1 q2 inner hq1 hq2 hid]

theorem identB_head_start {key : Str} (hid : identB key = true) :
    ∃ c cs, key = c :: cs ∧ identStartChar c = true := by
  cases key with
  | nil => cases hid
  | cons c cs =>
    have hsplit : identStartChar c = true ∧ ∀ x ∈ cs, identTailChar x = true := by
      simpa [identB] using hid
    exact ⟨c, cs, rfl, hsplit.1⟩

theorem simpleQuotedInner_of_ident {key : Str} (hid : identB key = true) :
    simpleQuotedInner key = none := by
  obtain ⟨c, cs, rfl, hs⟩ := identB_head_start hid
  simp only [simpleQuotedInner]
  rw [if_neg (by rw [(identTail_noSpecial (identStart_tail hs)).2.2.1]; simp)]

theorem vueDelRepl_ident (obj key : Str) (hid : identB key = true) :
    vueDelRepl obj key = str "delete " ++ obj ++ '.' :: key := by
  have htrim := trimWs_all_nonws
    (fun c hc => (identTail_noSpecial (identB_chars hid c hc)).2.2.2)
  simp only [vueDelRepl, htrim, simpleQuotedInner_of_ident hid]
  rw [if_pos hid]

theorem vueDelRepl_complex (obj key : Str)
    (hsqi : simpleQuotedInner (trimWs key) = none) (hid : identB (trimWs key) = false) :
    vueDelRepl obj key = str "delete " ++ obj ++ '[' :: key ++ [']'] := by
  simp only [vueDelRepl, hsqi]
  rw [if_neg (by rw [hid]; simp)]

theorem vueSetRepl_quoted (obj inner v : Str) (q1 q2 : Char)
    (hq1 : isQuote q1 = true) (hq2 : isQuote q2 = true) (hid : identB inner = true) :
    vueSetRepl obj (q1 :: (inner ++ [q2])) v = obj ++ '.' :: inner ++ str " = " ++ v := by
  have hnonws : ∀ c ∈ q1 :: (inner ++ [q2]), isWsChar c = false := by
    intro c hc
    rcases List.mem_cons.mp hc with rfl | hc2
    · exact (quote_noSpecial hq1).1
    · rcases List.mem_append.mp hc2 with hc3 | hc4
      · exact (identTail_noSpecial (identB_chars hid c hc3)).2.2.2
      · rw [List.mem_singleton.mp hc4]; exact (quote_noSpecial hq2).1
  have htrim := trimWs_all_nonws hnonws
  simp only [vueSetRepl, htrim, simpleQuotedInner_quoted q1 q2 inner hq1 hq2 hid]

theorem vueSetRepl_ident (obj key v : Str) (hid : identB key = true) :
    vueSetRepl obj key v = obj ++ '.' :: key ++ str " = " ++ v := by
  have htrim := trimWs_all_nonws
    (fun c hc => (identTail_noSpecial (identB_chars hid c hc)).2.2.2)
  simp only [vueSetRepl, htrim, simpleQuotedInner_of_ident hid]
  rw [if_pos hid]

theorem vueSetRepl_complex (obj key v : Str)
    (hsqi : simpleQuotedInner (trimWs key) = none) (hid : identB (trimWs key) = false) :
    vueSetRepl obj key v = obj ++ '[' :: key ++ str "] = " ++ v := by
  simp only [vueSetRepl, hsqi]
  rw [if_neg (by rw [hid]; simp)]

theorem identKey_noParen {key : Str} (hid : identB key = true) :
    ∀ c ∈ key, (!(c = ')')) = true :=
  fun c hc => by simp [(identTail_noSpecial (identB_chars hid c hc)).2.1]

theorem identKey_noComma {key : Str} (hid : identB key = true) :
    ∀ c ∈ key, (!(c = ',')) = true :=
  fun c hc => by simp [(identTail_noSpecial (identB_chars hid c hc)).1]

theorem identKey_dropWhile {key : Str} (hid : identB key = true) :
    key.dropWhile isWsChar = key := by
  obtain ⟨c, cs, rfl, hs⟩ := identB_head_start hid
  exact dropWhile_head_false _ ((identTail_noSpecial (identStart_tail hs)).2.2.2)

theorem quotedKey_noParen (q1 q2 : Char) (inner : Str)
    (hq1 : isQuote q1 = true) (hq2 : isQuote q2 = true) (hid : identB inner = true) :
    ∀ c ∈ q1 :: (inner ++ [q2]), (!(c = ')')) = true := by
  intro c hc
  rcases List.mem_cons.mp hc with rfl | hc2
  · simp [(quote_noSpecial hq1).2.2]
  · rcases List.mem_append.mp hc2 with hc3 | hc4
    · simp [(identTail_noSpecial (identB_chars hid c hc3)).2.1]
    · rw [List.mem_singleton.mp hc4]; simp [(quote_noSpecial hq2).2.2]

theorem quotedKey_noComma (q1 q2 : Char) (inner : Str)
    (hq1 : isQuote q1 = true) (hq2 : isQuote q2 = true) (hid : identB inner = true) :
    ∀ c ∈ q1 :: (inner ++ [q2]), (!(c = ',')) = true := by
  intro c hc
  rcases List.mem_cons.mp hc with rfl | hc2
  · simp [(quote_noSpecial hq1).2.1]
  · rcases List.mem_append.mp hc2 with hc3 | hc4
    · simp [(identTail_noSpecial (identB_chars hid c hc3)).1]
    · rw [List.mem_singleton.mp hc4]; simp [(quote_noSpecial hq2).2.1]

/-- C8: the $set/$delete rewrite of the body rewriter.  A this-qualified
delete call whose key argument is a simple quoted string or a bare simple
identifier is rewritten to the dot form (delete obj.key), any other key to
the bracket form (delete obj[key]); a this-qualified set call is rewritten
to the dot assignment obj.key = v, respectively the bracket assignment
obj[key] = v, by the same key rule.  Field hypotheses describe what the
argument-capturing character classes of the source pattern accept: the
object capture is nonempty, comma-free and starts past leading whitespace,
the key capture is comma-free (paren-free for delete), and the value
capture is paren-free. -/
theorem c8_set_delete_rewrite :
    (∀ obj inner v : Str, ∀ q1 q2 : Char,
      obj ≠ [] → (∀ c ∈ obj, (!(c = ',')) = true) → obj.dropWhile isWsChar = obj →
      v ≠ [] → (∀ c ∈ v, (!(c = ')')) = true) → v.dropWhile isWsChar = v →
      isQuote q1 = true → isQuote q2 = true → identB inner = true →
      setPass (str "this.$set(" ++
          (obj ++ ',' :: ((q1 :: (inner ++ [q2])) ++ ',' :: (v ++ [')'])))) =
        obj ++ '.' :: inner ++ str " = " ++ v) ∧
    (∀ obj key v : Str,
      obj ≠ [] → (∀ c ∈ obj, (!(c = ',')) = true) → obj.dropWhile isWsChar = obj →
      v ≠ [] → (∀ c ∈ v, (!(c = ')')) = true) → v.dropWhile isWsChar = v →
      identB key = true →
      setPass (str "this.$set(" ++ (obj ++ ',' :: (key ++ ',' :: (v ++ [')'])))) =
        obj ++ '.' :: key ++ str " = " ++ v) ∧
    (∀ obj key v : Str,
      obj ≠ [] → (∀ c ∈ obj, (!(c = ',')) = true) → obj.dropWhile isWsChar = obj →
      key ≠ [] → (∀ c ∈ key, (!(c = ',')) = true) → key.dropWhile isWsChar = key →
      v ≠ [] → (∀ c ∈ v, (!(c = ')')) = true) → v.dropWhile isWsChar = v →
      simpleQuotedInner (trimWs key) = none → identB (trimWs key) = false →
      setPass (str "this.$set(" ++ (obj ++ ',' :: (key ++ ',' :: (v ++ [')'])))) =
        obj ++ '[' :: key ++ str "] = " ++ v) ∧
    (∀ obj inner : Str, ∀ q1 q2 : Char,
      obj ≠ [] → (∀ c ∈ obj, (!(c = ',')) = true) → obj.dropWhile isWsChar = obj →
      isQuote q1 = true → isQuote q2 = true → identB inner = true →
      delPass (str "this.$delete(" ++
          (obj ++ ',' :: ((q1 :: (inner ++ [q2])) ++ [')']))) =
        str "delete " ++ obj ++ '.' :: inner) ∧
    (∀ obj key : Str,
      obj ≠ [] → (∀ c ∈ obj, (!(c = ',')) = true) → obj.dropWhile isWsChar = obj →
      identB key = true →
      delPass (str "this.$delete(" ++ (obj ++ ',' :: (key ++ [')']))) =
        str "delete " ++ obj ++ '.' :: key) ∧
    (∀ obj key : Str,
      obj ≠ [] → (∀ c ∈ obj, (!(c = ',')) = true) → obj.dropWhile isWsChar = obj →
      key ≠ [] → (∀ c ∈ key, (!(c = ')')) = true) → key.dropWhile isWsChar = key →
      simpleQuotedInner (trimWs key) = none → identB (trimWs key) = false →
      delPass (str "this.$delete(" ++ (obj ++ ',' :: (key ++ [')']))) =
        str "delete " ++ obj ++ '[' :: key ++ [']']) := by
  refine ⟨?_, ?_, ?_, ?_, ?_, ?_⟩
  · intro obj inner v q1 q2 ho hoc how hv hvc hvw hq1 hq2 hid
    have hkne : q1 :: (inner ++ [q2]) ≠ [] := by simp
    have hp := setParser_canonical obj (q1 :: (inner ++ [q2])) v ho hoc how hkne
      (quotedKey_noComma q1 q2 inner hq1 hq2 hid)
      (dropWhile_head_false _ (quote_noSpecial hq1).1) hv hvc hvw
    exact (scanRew_exact 't' (str "his.$set(") setParser _ _ hp).trans
      (vueSetRepl_quoted obj inner v q1 q2 hq1 hq2 hid)
  · intro obj key v ho hoc how hv hvc hvw hid
    obtain ⟨c, cs, hkey, _⟩ := identB_head_start hid
    have hkne : key ≠ [] := by rw [hkey]; simp
    have hp := setParser_canonical obj key v ho hoc how hkne
      (identKey_noComma hid) (identKey_dropWhile hid) hv hvc hvw
    exact (scanRew_exact 't' (str "his.$set(") setParser _ _ hp).trans
      (vueSetRepl_ident obj key v hid)
  · intro obj key v ho hoc how hk hkc hkw hv hvc hvw hsqi hid
    have hp := setParser_canonical obj key v ho hoc how hk hkc hkw hv hvc hvw
    exact (scanRew_exact 't' (str "his.$set(") setParser _ _ hp).trans
      (vueSetRepl_complex obj key v hsqi hid)
  · intro obj inner q1 q2 ho hoc how hq1 hq2 hid
    have hkne : q1 :: (inner ++ [q2]) ≠ [] := by simp
    have hp := delParser_canonical obj (q1 :: (inner ++ [q2])) ho hoc how hkne
      (quotedKey_noParen q1 q2 inner hq1 hq2 hid)
      (dropWhile_head_false _ (quote_noSpecial hq1).1)
    exact (scanRew_exact 't' (str "his.$delete(") delParser _ _ hp).trans
      (vueDelRepl_quoted obj inner q1 q2 hq1 hq2 hid)
  · intro obj key ho hoc how hid
    obtain ⟨c, cs, hkey, _⟩ := identB_head_start hid
    have hkne : key ≠ [] := by rw [hkey]; simp
    have hp := delParser_canonical obj key ho hoc how hkne
      (identKey_noParen hid) (identKey_dropWhile hid)
    exact (scanRew_exact 't' (str "his.$delete(") delParser _ _ hp).trans
      (vueDelRepl_ident obj key hid)
  · intro obj key ho hoc how hk hkc hkw hsqi hid
    have hp := delParser_canonical obj key ho hoc how hk hkc hkw
    exact (scanRew_exact 't' (str "his.$delete(") delParser _ _ hp).trans
      (vueDelRepl_complex obj key hsqi hid)

theorem c8_set_delete_rewrite_witness :
    delPass (str "this.$delete(" ++
        (str "obj" ++ ',' :: (('\x27' :: (str "key" ++ ['\x27'])) ++ [')']))) =
      str "delete " ++ str "obj" ++ '.' :: str "key" ∧
    setPass (str "this.$set(" ++
        (str "obj" ++ ',' :: (str "idx + 1" ++ ',' :: (str "v" ++ [')'])))) =
      str "obj" ++ '[' :: str "idx + 1" ++ str "] = " ++ str "v" := by
  constructor
  · have h := (c8_set_delete_rewrite.2.2.2.1) (str "obj") (str "key") '\x27' '\x27'
      (by decide) (by decide) (by decide) (by decide) (by decide) (by decide)
    exact h
  · have h := (c8_set_delete_rewrite.2.2.1) (str "obj") (str "idx + 1") (str "v")
      (by decide) (by decide) (by decide) (by decide) (by decide) (by decide)
      (by decide) (by decide) (by decide) (by decide) (by decide)
    exact h

/- Identity lemmas: every pass of the body rewriter is anchored on a literal
   containing the this-qualifier, so a body with no occurrence of it is left
   unchanged by all of them; only the brace stripping can remove anything. -/

theorem findThisProp_none {t : Str} (h : containsSub (str "this.") t = false) :
    findThisProp t = none := by
  induction t with
  | nil => rfl
  | cons c rest ih =>
    have h2 : (isPre (str "this.") (c :: rest) ||
        containsSub (str "this.") rest) = false := h
    rw [Bool.or_eq_false_iff] at h2
    rw [findThisProp, if_neg (by simp [h2.1])]
    exact ih h2.2

theorem flagLine_id (p : TransformParams) {l : Str}
    (h : containsSub (str "this.") l = false) : flagLine p l = l := by
  have ht := not_containsSub_of_piece (trimWs_piece l) h
  simp only [flagLine, findThisProp_none ht]

theorem flagPass_id (p : TransformParams) {s : Str}
    (h : containsSub (str "this.") s = false) : flagPass p s = s := by
  rw [flagPass]
  have h2 : ∀ l ∈ splitOnNl s, flagLine p l = l := fun l hl =>
    flagLine_id p (not_containsSub_of_piece (mem_splitOnNl_piece hl) h)
  rw [List.map_congr_left h2]
  have h3 : List.map (fun a : Str => a) (splitOnNl s) = splitOnNl s := by
    simp
  rw [h3, joinNl_splitOnNl]

theorem axiosStep_id (p : TransformParams) {s : Str}
    (h : containsSub (str "this.") s = false) : axiosStep p s = s := by
  rw [axiosStep]
  by_cases hA : p.hasAxios = true
  · rw [if_pos hA]
    have h1 : scanRew (str "this.$axios") axiosParser s = s := scanRew_id_sub _ (by decide) h
    rw [h1]
    exact scanRew_id_sub _ (by decide) h
  · rw [if_neg hA]

theorem nextTickStep_id (p : TransformParams) {s : Str}
    (h : containsSub (str "this.") s = false) : nextTickStep p s = s := by
  rw [nextTickStep]
  by_cases hA : p.hasNextTick = true
  · rw [if_pos hA]
    exact scanRew_id_sub _ (by decide) h
  · rw [if_neg hA]

theorem vuexMethodCallStep_id (p : TransformParams) {s : Str}
    (h : containsSub (str "this.") s = false) : vuexMethodCallStep p s = s := by
  rw [vuexMethodCallStep]
  cases p.optionsVuex with
  | none => exact scanRew_id_sub _ (by decide) h
  | some nsList =>
    show List.foldl (fun acc nscfg =>
      scanRew (str "this.")
        (wordCallParser (getStoreInstanceName nscfg.2.importName)) acc) s nsList = s
    induction nsList with
    | nil => rfl
    | cons x xs ih =>
      rw [List.foldl_cons]
      have hstep : scanRew (str "this.")
          (wordCallParser (getStoreInstanceName x.2.importName)) s = s :=
        scanRew_id_sub _ (by decide) h
      rw [hstep]
      exact ih

theorem eventBusStep_id (p : TransformParams) {s : Str}
    (h : containsSub (str "this.") s = false) : eventBusStep p s = s := by
  rw [eventBusStep]
  by_cases hA : p.hasEventBus = true
  · rw [if_pos hA]
    have h1 : scanRew (str "this.$nuxt.$on") (constRepl (str "eventBus.on")) s = s :=
      scanRew_id_sub _ (by decide) h
    rw [h1]
    have h2 : scanRew (str "this.$nuxt.$off") (constRepl (str "eventBus.off")) s = s :=
      scanRew_id_sub _ (by decide) h
    rw [h2]
    have h3 : scanRew (str "this.$nuxt.$emit") (constRepl (str "eventBus.emit")) s = s :=
      scanRew_id_sub _ (by decide) h
    rw [h3]
    exact scanRew_id_sub _ (by decide) h
  · rw [if_neg hA]

theorem refsStep_id (p : TransformParams) {s : Str}
    (h : containsSub (str "this.") s = false) : refsStep p s = s := by
  rw [refsStep]
  by_cases hA : p.hasRefs = true
  · rw [if_pos hA]
    have h1 : scanRew (str "this.$refs?.") refsDotParser s = s :=
      scanRew_id_sub _ (by decide) h
    rw [h1]
    have h2 : scanRew (str "this.$refs.") refsDotParser s = s :=
      scanRew_id_sub _ (by decide) h
    rw [h2]
    exact scanRew_id_sub _ (by decide) h
  · rw [if_neg hA]

theorem configStep_id (p : TransformParams) {s : Str}
    (h : containsSub (str "this.") s = false) : configStep p s = s := by
  rw [configStep]
  by_cases hA : p.hasConfig = true
  · rw [if_pos hA]
    exact scanRew_id_sub _ (by decide) h
  · rw [if_neg hA]

theorem routerStep_id (p : TransformParams) {s : Str}
    (h : containsSub (str "this.") s = false) : routerStep p s = s := by
  rw [routerStep]
  by_cases hA : (p.hasRoute || p.hasRouter) = true
  · rw [if_pos hA]
    have h1 : (if p.hasRoute = true then
        scanRew (str "this.$route") (constRepl (str "route"))
      else id) s = s := by
      by_cases hR : p.hasRoute = true
      · rw [if_pos hR]
        exact scanRew_id_sub _ (by decide) h
      · rw [if_neg hR]
        rfl
    rw [h1]
    by_cases hR : p.hasRouter = true
    · rw [if_pos hR]
      exact scanRew_id_sub _ (by decide) h
    · rw [if_neg hR]
      rfl
  · rw [if_neg hA]

theorem transformStoreCommitDispatch_id (p : TransformParams) {s : Str}
    (h : containsSub (str "this.") s = false) :
    transformStoreCommitDispatch p s = s := by
  rw [transformStoreCommitDispatch]
  cases p.optionsVuex with
  | none => rfl
  | some l =>
    show scanRew (str "this.$store.dispatch")
      (commitDispatchParser l (str "this.$store.dispatch"))
      (scanRew (str "this.$store.commit")
        (commitDispatchParser l (str "this.$store.commit")) s) = s
    have h1 : scanRew (str "this.$store.commit")
        (commitDispatchParser l (str "this.$store.commit")) s = s :=
      scanRew_id_sub _ (by decide) h
    rw [h1]
    exact scanRew_id_sub _ (by decide) h

/-- C6: the body rewriter is idempotent on its own output.  On any body in
which every self-reference is already in target form (no occurrence of the
this-qualifier text remains), every rewrite pass declines, and the run
reduces to the brace stripping, whose result is a contiguous piece of the
input: no previously-rewritten accessor form is altered and no substring
absent from the input, in particular a doubled reactive-accessor suffix
such as .value.value, can appear in the output. -/
theorem c6_idempotent_on_target_form (p : TransformParams) (body : Str)
    (h : containsSub (str "this.") body = false) :
    transformMethodBodyModel p body = stripCloseBrace (stripOpenBrace body) ∧
    stripCloseBrace (stripOpenBrace body) <:+: body ∧
    (∀ pat : Str, containsSub pat body = false →
      containsSub pat (transformMethodBodyModel p body) = false) := by
  have hs1 : containsSub (str "this.") (stripCloseBrace (stripOpenBrace body)) = false :=
    not_containsSub_of_piece (stripBoth_piece body) h
  have hmain : transformMethodBodyModel p body = stripCloseBrace (stripOpenBrace body) := by
    rw [transformMethodBodyModel]
    have e1 : scanRew (str "this.$") tndParser body = body :=
      scanRew_id_sub _ (by decide) h
    rw [e1]
    have e2 : scanRew (str "this.$i18n.locale") (constRepl (str "locale.value")) body =
        body := scanRew_id_sub _ (by decide) h
    rw [e2]
    have e3 : scanRew (str "this.$i18n.localeProperties")
        (constRepl (str "localeProperties")) body = body :=
      scanRew_id_sub _ (by decide) h
    rw [e3]
    have e5 : emitPass (stripCloseBrace (stripOpenBrace body)) =
        stripCloseBrace (stripOpenBrace body) := scanRew_id_sub _ (by decide) hs1
    rw [e5]
    rw [flagPass_id p hs1]
    rw [axiosStep_id p hs1]
    have e8 : scanRew (str "this.$fetch()") (constRepl (str "fetch()"))
        (stripCloseBrace (stripOpenBrace body)) = stripCloseBrace (stripOpenBrace body) :=
      scanRew_id_sub _ (by decide) hs1
    rw [e8]
    rw [nextTickStep_id p hs1]
    rw [vuexMethodCallStep_id p hs1]
    rw [eventBusStep_id p hs1]
    have e12 : scanRew (str "...this.") spreadParser
        (stripCloseBrace (stripOpenBrace body)) = stripCloseBrace (stripOpenBrace body) :=
      scanRew_id_sub _ (by decide) hs1
    rw [e12]
    have e13 : treePass p (stripCloseBrace (stripOpenBrace body)) =
        stripCloseBrace (stripOpenBrace body) := scanRew_id_sub _ (by decide) hs1
    rw [e13]
    rw [refsStep_id p hs1]
    rw [configStep_id p hs1]
    rw [nextTickStep_id p hs1]
    rw [routerStep_id p hs1]
    exact transformStoreCommitDispatch_id p hs1
  refine ⟨hmain, stripBoth_piece body, ?_⟩
  intro pat hp
  rw [hmain]
  exact not_containsSub_of_piece (stripBoth_piece body) hp

theorem c6_idempotent_on_target_form_witness :
    transformMethodBodyModel trivParams (str "count.value = count.value + 1;") =
      str "count.value = count.value + 1;" ∧
    containsSub (str ".value.value")
      (transformMethodBodyModel trivParams (str "count.value = count.value + 1;")) =
      false := by
  have h := c6_idempotent_on_target_form trivParams
    (str "count.value = count.value + 1;") (by decide)
  constructor
  · rw [h.1]
    decide
  · exact h.2.2 (str ".value.value") (by decide)
